import Mathlib

/-!
# libdynamic `mapi`: an open-addressing hash table with integer keys

Shallow embedding of `src/src/mapi.c`.

* A slot pointer `objects + p * object_size` is represented by its slot index `p`;
  pointer comparisons inside the buffer are comparisons of indices, `mapi_end` is the
  index `capacity`, and a `NULL` pointer is `none`.
* Values of type `size_t` are natural numbers reduced modulo `2 ^ 64`, values of type
  `uint32_t` are reduced modulo `2 ^ 32`, wherever the C arithmetic can wrap.
* A function whose C body contains `while (1)` returns an `Option`; `none` means that
  the call never returns, dereferences `NULL`, or writes outside its buffer.
* The outcome of `aligned_alloc` is an oracle `alloc : Nat → Bool`: `alloc c` says whether
  the request made for a buffer of `c` slots returns a buffer. The byte count of that
  request is computed in `size_t` and can wrap (`buffer_bytes`).
* The calls of the `release` callback are recorded in the ghost field `released`.
-/

namespace Mapi

/-- The record header `mapi_object` (`struct { uint32_t key; }`) followed by the rest of
the record, an uninterpreted `payload`. -/
structure mapi_object where
  key : Nat
  payload : Nat
deriving DecidableEq, Repr

instance : Inhabited mapi_object := ⟨⟨0, 0⟩⟩

/-- The table `struct mapi`. The callbacks `clone`, `getKey` and `setKey` are fixed
(see `clone`, `getKey`); `release` says whether a release callback is registered and
`released` is the ghost trace of the records handed to it, oldest first. -/
structure mapi where
  objects : List mapi_object
  object_size : Nat
  empty_key : Nat
  size : Nat
  capacity : Nat
  release : Bool
  released : List mapi_object
deriving DecidableEq, Repr

/-- Modelled from the spec: `mapi.h` is not part of the sources. The minimum floor of a
nonzero capacity, 8. -/
def MAPI_MIN_CAPACITY : Nat := 8

/-- Modelled from the spec: `mapi.h` is not part of the sources. The default sentinel key
of `mapi_init`, taken as `(uint32_t) -1`; every table below sets its own sentinel with
`mapi_empty_key`. -/
def MAPI_EMPTY_KEY : Nat := 2 ^ 32 - 1

/-- Modelled from the spec: the injected capability `key_of(record)`, the callback
`m->getKey`; it reads the key the record starts with. -/
def getKey (o : mapi_object) : Nat := o.key

/-- Modelled from the spec: the injected capability `clone(dst, src, size)`, the callback
`m->clone`; the record `src` is value-copied over `dst`. -/
def clone (_dst src : mapi_object) (_size : Nat) : mapi_object := src

/-- Modelled from the spec: `mapi.h` is not part of the sources. The size in bytes of the
record header `mapi_object`, a `uint32_t` key; a slot of `object_size` bytes holds a record
when `object_size` is at least this. -/
def sizeof_mapi_object : Nat := 4

/-- Modelled from the spec: `mapi.h` is not part of the sources. `MAPI_ROUNDUP(s, a)` pads
the byte count `s` to a multiple of the alignment `a`, every step in `size_t`. -/
def MAPI_ROUNDUP (s a : Nat) : Nat := (((s + a - 1) % 2 ^ 64) / a * a) % 2 ^ 64

/-- The byte count `MAPI_ROUNDUP(c * object_size, 64)` that `mapi_rehash` passes to
`aligned_alloc` for `c` slots, computed in `size_t`. -/
def buffer_bytes (c object_size : Nat) : Nat :=
  MAPI_ROUNDUP ((c * object_size) % 2 ^ 64) 64

/-- `mapi_roundup_size` on a 64-bit `size_t`. -/
def mapi_roundup_size (s : Nat) : Nat :=
  let s := (s + 2 ^ 64 - 1) % 2 ^ 64
  let s := s ||| (s >>> 1)
  let s := s ||| (s >>> 2)
  let s := s ||| (s >>> 4)
  let s := s ||| (s >>> 8)
  let s := s ||| (s >>> 16)
  let s := s ||| (s >>> 32)
  (s + 1) % 2 ^ 64

/-- `hash` on `uint32_t`. -/
def hash (a : Nat) : Nat :=
  let a := a % 2 ^ 32
  let a := ((a + 0x7ed55d16) + (a <<< 12)) % 2 ^ 32
  let a := ((a ^^^ 0xc761c23c) ^^^ (a >>> 19)) % 2 ^ 32
  let a := ((a + 0x165667b1) + (a <<< 5)) % 2 ^ 32
  let a := ((a + 0xd3a2646c) ^^^ (a <<< 9)) % 2 ^ 32
  let a := ((a + 0xfd7046c5) + (a <<< 3)) % 2 ^ 32
  let a := ((a ^^^ 0xb55a4f09) ^^^ (a >>> 16)) % 2 ^ 32
  a

/-- `mapi_init`: every field zero except the record size and the default sentinel. -/
def mapi_init (s : Nat) : mapi :=
  { objects := [], object_size := s, empty_key := MAPI_EMPTY_KEY, size := 0, capacity := 0,
    release := false, released := [] }

/-- `mapi_empty_key`. -/
def mapi_empty_key (m : mapi) (k : Nat) : mapi := { m with empty_key := k }

/-- `mapi_release`: registers (`true`) or clears (`false`, a `NULL` pointer) the callback. -/
def mapi_release (m : mapi) (release : Bool) : mapi := { m with release := release }

/-- `mapi_size`. -/
def mapi_size (m : mapi) : Nat := m.size

/-- `mapi_bucket_count`. -/
def mapi_bucket_count (m : mapi) : Nat := m.capacity

/-- `mapi_get`: the record in slot `p`. -/
def mapi_get (m : mapi) (p : Nat) : mapi_object := m.objects.getD p default

/-- `mapi_end`: the one-past-last slot. -/
def mapi_end (m : mapi) : Nat := m.capacity

/-- `mapi_inc`: the next slot. -/
def mapi_inc (_m : mapi) (o : Nat) : Nat := o + 1

/-- `mapi_empty`. -/
def mapi_empty (m : mapi) (o : Nat) : Bool := decide ((mapi_get m o).key = m.empty_key)

/-- The `while (1)` loop of `mapi_at`, run for at most `fuel` probes from position `p`. -/
def mapi_at_loop (m : mapi) (k : Nat) : Nat → Nat → Option Nat
  | 0, _ => none
  | fuel + 1, p =>
    let p := p &&& (m.capacity - 1)
    let o := mapi_get m p
    if o.key = m.empty_key ∨ getKey o = k then some p
    else mapi_at_loop m k fuel (p + 1)

/-- `mapi_at`: `some none` is the `NULL` result on capacity 0. A loop that has not
returned after `capacity` probes has seen every slot it will ever see, so `capacity`
probes decide whether it returns. -/
def mapi_at (m : mapi) (k : Nat) : Option (Option Nat) :=
  let hk := hash k
  if m.capacity = 0 then some none
  else (mapi_at_loop m k m.capacity hk).map some

/-- `mapi_find`. -/
def mapi_find (m : mapi) (k : Nat) : Option (Option Nat) :=
  (mapi_at m k).map fun o =>
    match o with
    | some p => if !mapi_empty m p then some p else none
    | none => none

/-- `mapi_reserve`, over the `mapi_rehash` it calls. -/
def mapi_reserve_with (rehash : mapi → Nat → Option (mapi × Int)) (m : mapi) (s : Nat) :
    Option (mapi × Int) :=
  let s := (s <<< 1) % 2 ^ 64
  if s > m.capacity then rehash m s else some (m, 0)

/-- `mapi_insert`, over the `mapi_rehash` its `mapi_reserve` calls. The result is the table
and the returned pointer. Dereferencing the `NULL` returned by `mapi_at` is `none`. -/
def mapi_insert_with (rehash : mapi → Nat → Option (mapi × Int)) (m : mapi)
    (o : mapi_object) : Option (mapi × Option Nat) :=
  match mapi_reserve_with rehash m ((m.size + 1) % 2 ^ 64) with
  | none => none
  | some (m, e) =>
    if e = -1 then some (m, none)
    else
      let gk := getKey o
      match mapi_at m gk with
      | none => none
      | some none => none
      | some (some mo) =>
        if (mapi_get m mo).key = m.empty_key then
          some ({ m with
                  objects := m.objects.set mo (clone (mapi_get m mo) o m.object_size)
                  size := (m.size + 1) % 2 ^ 64 }, some mo)
        else
          some (if m.release then { m with released := m.released ++ [o] } else m, none)

/-- The loop of `mapi_skip`, run for at most `fuel` steps. -/
def mapi_skip_loop (m : mapi) : Nat → Nat → Nat
  | 0, o => o
  | fuel + 1, o =>
    if o < mapi_end m ∧ (mapi_get m o).key = m.empty_key then
      mapi_skip_loop m fuel (mapi_inc m o)
    else o

/-- `mapi_skip`; the loop leaves within `capacity` steps (`mapi_skip_exit`). -/
def mapi_skip (m : mapi) (o : Nat) : Nat := mapi_skip_loop m m.capacity o

/-- `mapi_begin`. -/
def mapi_begin (m : mapi) : Nat := mapi_skip m 0

/-- `mapi_next`. -/
def mapi_next (m : mapi) (o : Nat) : Nat := mapi_skip m (mapi_inc m o)

/-- The slots visited by `for (o = start; o < mapi_end(m); o = mapi_next(m, o))`, for at
most `fuel` rounds. -/
def mapi_iter_loop (m : mapi) : Nat → Nat → List Nat
  | 0, _ => []
  | fuel + 1, o => if o < mapi_end m then o :: mapi_iter_loop m fuel (mapi_next m o) else []

/-- The slots visited by `for (o = mapi_begin(m); o < mapi_end(m); o = mapi_next(m, o))`. -/
def mapi_iter (m : mapi) : List Nat := mapi_iter_loop m m.capacity (mapi_begin m)

/-- `mapi_rehash` with a bound `fuel` on the depth of the growths nested through
`mapi_insert`. `alloc c` says whether `aligned_alloc` returns a buffer for the request of
`buffer_bytes c object_size` bytes. When that byte count, which is computed in `size_t`, is
less than the `c * object_size` bytes that `c` slots take, the loops that follow write
outside the buffer: the call is `none`. Otherwise the fresh buffer has every key set to the
sentinel; its other bytes are uninitialised and taken as 0. The new table shares the release
trace of the old one. -/
def mapi_rehash_fuel (alloc : Nat → Bool) : Nat → mapi → Nat → Option (mapi × Int)
  | 0, _, _ => none
  | fuel + 1, m, c =>
    let c := mapi_roundup_size c
    if c > m.capacity then
      let c := if m.capacity = 0 then (if c < MAPI_MIN_CAPACITY then MAPI_MIN_CAPACITY else c)
               else c
      let nm := mapi_init m.object_size
      let nm := mapi_empty_key nm m.empty_key
      let nm := mapi_release nm m.release
      let nm := { nm with released := m.released }
      let nm := { nm with capacity := c }
      if !alloc c then some (m, -1)
      else if buffer_bytes c nm.object_size < c * nm.object_size then none
      else
        let nm := { nm with objects := List.replicate c ⟨nm.empty_key, 0⟩ }
        match (mapi_iter m).foldlM
            (fun nm o => (mapi_insert_with (mapi_rehash_fuel alloc fuel) nm (mapi_get m o)).map
              Prod.fst) nm with
        | none => none
        | some nm => some (nm, 0)
    else some (m, 0)

/-- `mapi_rehash`. A growth nested in the re-insertion works on a table with fewer live
records than the one being rehashed, so `capacity + 1` levels are never used up. -/
def mapi_rehash (alloc : Nat → Bool) (m : mapi) (c : Nat) : Option (mapi × Int) :=
  mapi_rehash_fuel alloc (m.capacity + 1) m c

/-- `mapi_reserve`. -/
def mapi_reserve (alloc : Nat → Bool) (m : mapi) (s : Nat) : Option (mapi × Int) :=
  mapi_reserve_with (mapi_rehash alloc) m s

/-- `mapi_insert`. -/
def mapi_insert (alloc : Nat → Bool) (m : mapi) (o : mapi_object) :
    Option (mapi × Option Nat) :=
  mapi_insert_with (mapi_rehash alloc) m o

/-- The repair loop of `mapi_erase`, run for at most `fuel` rounds: the table, the hole `o`
and the scan position `i`. -/
def mapi_erase_loop : Nat → mapi → Nat → Nat → Option (mapi × Nat)
  | 0, _, _, _ => none
  | fuel + 1, m, o, i =>
    let i := mapi_inc m i
    let i := if i = mapi_end m then 0 else i
    if (mapi_get m i).key = m.empty_key then some (m, o)
    else
      let w := getKey (mapi_get m i) &&& (m.capacity - 1)
      if (i > o ∧ (w ≤ o ∨ w > i)) ∨ (i < o ∧ (w ≤ o ∧ w > i)) then
        mapi_erase_loop fuel
          { m with objects := m.objects.set o (clone (mapi_get m o) (mapi_get m i) m.object_size) }
          i i
      else mapi_erase_loop fuel m o i

/-- `mapi_erase`. The repair loop never changes which slots are empty, so a loop that has
not met an empty slot after `capacity` rounds never returns. -/
def mapi_erase (m : mapi) (k : Nat) : Option mapi :=
  match mapi_at m k with
  | none => none
  | some none => some m
  | some (some o) =>
    if (mapi_get m o).key = m.empty_key then some m
    else
      let m := if m.release then { m with released := m.released ++ [mapi_get m o] } else m
      let m := { m with size := (m.size + 2 ^ 64 - 1) % 2 ^ 64 }
      match mapi_erase_loop m.capacity m o o with
      | none => none
      | some (m, o) =>
        some { m with objects := m.objects.set o { mapi_get m o with key := m.empty_key } }

/-- `mapi_clear`. -/
def mapi_clear (m : mapi) : mapi :=
  let m := if m.release then
      (mapi_iter m).foldl (fun m o => { m with released := m.released ++ [mapi_get m o] }) m
    else m
  { m with objects := [], size := 0, capacity := 0 }

/-! ## Observations, invariants and runs -/

/-- The record `mapi_find` points to: `some none` when the key is not found. -/
def mapi_find_record (m : mapi) (k : Nat) : Option (Option mapi_object) :=
  (mapi_find m k).map fun o => o.map (mapi_get m)

/-- The number of slots, among the `capacity` slots, whose key differs from the sentinel. -/
def live_count (m : mapi) : Nat :=
  ((List.range m.capacity).filter fun i => !mapi_empty m i).length

/-- Zero or a power of two that is at least the minimum floor. -/
def capacity_shape (c : Nat) : Prop :=
  c = 0 ∨ (MAPI_MIN_CAPACITY ≤ c ∧ ∃ j, j < 64 ∧ c = 2 ^ j)

instance (c : Nat) : Decidable (capacity_shape c) := by
  unfold capacity_shape; infer_instance

/-- The data-model invariant of a table: the buffer has `capacity` slots, the capacity is 0
or a power of two from 8 up to `2 ^ 62`, `size` counts the live slots and the load factor is
at most one half. -/
def WF (m : mapi) : Prop :=
  m.objects.length = m.capacity ∧ capacity_shape m.capacity ∧ m.capacity < 2 ^ 63 ∧
    m.size = live_count m ∧ 2 * m.size ≤ m.capacity

instance (m : mapi) : Decidable (WF m) := by
  unfold WF; infer_instance

/-- Every stored record is the one `mapi_find` returns for its key. -/
def Findable (m : mapi) : Prop :=
  ∀ i, i < m.capacity → (mapi_get m i).key ≠ m.empty_key →
    mapi_find m (mapi_get m i).key = some (some i)

instance (m : mapi) : Decidable (Findable m) := by
  unfold Findable; infer_instance

/-- The stored keys are pairwise distinct. -/
def DistinctKeys (m : mapi) : Prop :=
  ∀ i, i < m.capacity → ∀ j, j < m.capacity → (mapi_get m i).key ≠ m.empty_key →
    (mapi_get m i).key = (mapi_get m j).key → i = j

instance (m : mapi) : Decidable (DistinctKeys m) := by
  unfold DistinctKeys; infer_instance

/-- The record `r` is stored in a live slot. -/
def Stored (m : mapi) (r : mapi_object) : Prop :=
  ∃ i, i < m.capacity ∧ mapi_get m i = r ∧ r.key ≠ m.empty_key

/-- What the probe loops rely on: a buffer of `capacity` slots, a power-of-two capacity
and a `size` that counts the live slots. -/
def Probing (m : mapi) : Prop :=
  m.objects.length = m.capacity ∧ (∃ j, m.capacity = 2 ^ j) ∧ m.capacity < 2 ^ 64 ∧
    m.size = live_count m

/-- The table `nm` of `mapi_rehash` once its buffer of `c` slots is allocated and cleared,
before the live records are inserted again. -/
def rehash_target (m : mapi) (c : Nat) : mapi :=
  { objects := List.replicate c ⟨m.empty_key, 0⟩, object_size := m.object_size,
    empty_key := m.empty_key, size := 0, capacity := c, release := m.release,
    released := m.released }

/-- The capacity `mapi_rehash` asks for when it grows a table. -/
def rehash_capacity (m : mapi) (n : Nat) : Nat :=
  if m.capacity = 0 then
    (if mapi_roundup_size n < MAPI_MIN_CAPACITY then MAPI_MIN_CAPACITY else mapi_roundup_size n)
  else mapi_roundup_size n

/-- The table `m1` holds the same records as `m`, every one of them findable, in a buffer
that may have been grown; nothing was released. -/
def SameContents (m m1 : mapi) : Prop :=
  m1.objects.length = m1.capacity ∧ capacity_shape m1.capacity ∧ m1.capacity < 2 ^ 64 ∧
    m1.size = live_count m1 ∧ Findable m1 ∧ m1.empty_key = m.empty_key ∧
    m1.release = m.release ∧ m1.released = m.released ∧ m1.object_size = m.object_size ∧
    m1.size = m.size ∧ m.capacity ≤ m1.capacity ∧ ∀ r, Stored m1 r ↔ Stored m r

/-- An allocator that never hands out `2 ^ 63` slots or more. -/
def AllocBounded (alloc : Nat → Bool) : Prop := ∀ c, alloc c = true → c < 2 ^ 63

/-- The padded byte count of `c` slots of `s` bytes is below `2 ^ 64`: the byte count that
`mapi_rehash` computes does not wrap, and the buffer holds the `c` slots. -/
def BufferFits (c s : Nat) : Prop := c * s + 64 ≤ 2 ^ 64

instance (c s : Nat) : Decidable (BufferFits c s) := by
  unfold BufferFits; infer_instance

/-- An allocator that returns a buffer only for a request whose byte count did not wrap, on
a table with slots of `s` bytes. -/
def AllocFits (s : Nat) (alloc : Nat → Bool) : Prop := ∀ c, alloc c = true → BufferFits c s

/-- A call of one of the mutating operations of the public interface. -/
inductive Op where
  | insert (alloc : Nat → Bool) (o : mapi_object)
  | erase (k : Nat)
  | reserve (alloc : Nat → Bool) (n : Nat)
  | rehash (alloc : Nat → Bool) (n : Nat)
  | clear

/-- The table after one call; `none` when the call does not return. -/
def step (m : mapi) : Op → Option mapi
  | Op.insert alloc o => (mapi_insert alloc m o).map Prod.fst
  | Op.erase k => mapi_erase m k
  | Op.reserve alloc n => (mapi_reserve alloc m n).map Prod.fst
  | Op.rehash alloc n => (mapi_rehash alloc m n).map Prod.fst
  | Op.clear => some (mapi_clear m)

/-- The table after a sequence of calls. -/
def run (m : mapi) : List Op → Option mapi
  | [] => some m
  | op :: ops => (step m op).bind fun m => run m ops

/-- The preconditions of a call on a table with slots of `s` bytes and sentinel `e`: no
inserted record has the sentinel as its key, and the allocator returns a buffer only for a
request whose byte count did not wrap. -/
def ValidOp (s e : Nat) : Op → Prop
  | Op.insert alloc o => o.key ≠ e ∧ AllocFits s alloc
  | Op.erase _ => True
  | Op.reserve alloc _ => AllocFits s alloc
  | Op.rehash alloc _ => AllocFits s alloc
  | Op.clear => True

/-- The preconditions of every call of a sequence. -/
def ValidOps (s e : Nat) (ops : List Op) : Prop := ∀ op, op ∈ ops → ValidOp s e op

/-- A freshly initialised table with sentinel `e`. -/
def fresh (s e : Nat) (release : Bool) : mapi :=
  mapi_release (mapi_empty_key (mapi_init s) e) release

/-- The allocator that succeeds on every request for fewer than `2 ^ 63` slots. -/
def alloc_ok (c : Nat) : Bool := decide (c < 2 ^ 63)

/-- The allocator that, on a table with slots of `s` bytes, succeeds exactly on the
requests whose byte count does not wrap. -/
def alloc_fits (s c : Nat) : Bool := decide (BufferFits c s)

/-- The allocator that always fails. -/
def alloc_fail (_c : Nat) : Bool := false

/-- A table of capacity 8 holding four records; the keys 9 and 12 start their probes in
the same slot 1, and 21 is pushed from slot 2 to slot 3. -/
def table8 : mapi :=
  { objects := [⟨7, 70⟩, ⟨9, 90⟩, ⟨12, 120⟩, ⟨21, 210⟩, ⟨4294967295, 0⟩, ⟨4294967295, 0⟩,
      ⟨4294967295, 0⟩, ⟨4294967295, 0⟩],
    object_size := 8, empty_key := 4294967295, size := 4, capacity := 8, release := true,
    released := [] }

/-- A sequence of calls with a growth, an erase with repair, an explicit reserve and an
explicit rehash. -/
def sample_ops : List Op :=
  [Op.insert (alloc_fits 8) ⟨7, 70⟩, Op.insert (alloc_fits 8) ⟨9, 90⟩,
    Op.insert (alloc_fits 8) ⟨12, 120⟩, Op.insert (alloc_fits 8) ⟨21, 210⟩,
    Op.insert (alloc_fits 8) ⟨5, 50⟩, Op.erase 9, Op.reserve (alloc_fits 8) 20,
    Op.rehash alloc_fail 100, Op.insert (alloc_fits 8) ⟨12, 121⟩]



/-- The slot `w` that the repair loop of `mapi_erase` computes for the record in slot `i`:
`mapi_get(m, m->getKey(i) & (m->capacity - 1))`. -/
def mapi_erase_w (m : mapi) (i : Nat) : Nat := getKey (mapi_get m i) &&& (m.capacity - 1)

/-- The slot `mapi_at` probes first for the key `k`: `hash(k) & (m->capacity - 1)`. -/
def probe_start (m : mapi) (k : Nat) : Nat := hash k &&& (m.capacity - 1)

/-- The move test of the repair loop of `mapi_erase`, on the hole `o`, the scanned slot `i`
and the slot `w` computed for its record. -/
def move_test (o i w : Nat) : Prop := (i > o ∧ (w ≤ o ∨ w > i)) ∨ (i < o ∧ (w ≤ o ∧ w > i))

instance (o i w : Nat) : Decidable (move_test o i w) :=
  inferInstanceAs (Decidable ((i > o ∧ (w ≤ o ∨ w > i)) ∨ (i < o ∧ (w ≤ o ∧ w > i))))

/-- The number of steps forward, with wraparound in a buffer of `c` slots, from slot `a` to
slot `b`. -/
def cyclic_dist (c a b : Nat) : Nat := (b + c - a) % c

/-- The slot `w` is met when walking forward, with wraparound in a buffer of `c` slots, from
the slot just after `o` up to and including the slot `i`. -/
def in_cyclic_range (c o i w : Nat) : Prop :=
  ∃ d, d < c ∧ 1 ≤ d ∧ d ≤ cyclic_dist c o i ∧ w = (o + d) % c

instance (c o i w : Nat) : Decidable (in_cyclic_range c o i w) := by
  unfold in_cyclic_range; infer_instance

/-- Every stored key is found by `mapi_find`, in some slot. -/
def KeysFound (m : mapi) : Prop :=
  ∀ i, i < m.capacity → (mapi_get m i).key ≠ m.empty_key →
    ∃ p, p < m.capacity ∧ mapi_find m (mapi_get m i).key = some (some p)

instance (m : mapi) : Decidable (KeysFound m) := by
  unfold KeysFound; infer_instance

/-- The calls that strand the record of key 29: the keys 2 and 29 both probe from slot 4 of
8, the erase of 2 leaves 29 in slot 5 behind the empty slot 4, and three more inserts bring
`size` to 4. -/
def stranded_ops : List Op :=
  [Op.insert (alloc_fits 8) ⟨2, 100⟩, Op.insert (alloc_fits 8) ⟨29, 200⟩, Op.erase 2,
    Op.insert (alloc_fits 8) ⟨7, 1⟩, Op.insert (alloc_fits 8) ⟨9, 1⟩,
    Op.insert (alloc_fits 8) ⟨21, 1⟩]

/-- The calls that store the key 0 twice: the keys 20 and 0 both probe from slot 7 of 8, so
0 is stored in slot 0; the erase of 20 leaves it there behind the empty slot 7, the insert
of `(0, 201)` fills slot 7, and two more inserts bring `size` to 4. -/
def doubled_ops : List Op :=
  [Op.insert (alloc_fits 8) ⟨20, 100⟩, Op.insert (alloc_fits 8) ⟨0, 200⟩, Op.erase 20,
    Op.insert (alloc_fits 8) ⟨0, 201⟩, Op.insert (alloc_fits 8) ⟨9, 1⟩,
    Op.insert (alloc_fits 8) ⟨12, 1⟩]

/-! ## Lemmas -/

theorem mapi_get_set (m : mapi) (p q : Nat) (x : mapi_object)
    (hp : p < m.objects.length) :
    mapi_get { m with objects := m.objects.set p x } q = if q = p then x else mapi_get m q := by
  unfold mapi_get
  simp only [List.getD_eq_getElem?_getD, List.getElem?_set]
  by_cases h : p = q
  · subst h; simp [hp]
  · have : ¬ q = p := fun h2 => h h2.symm
    simp [h, this]

theorem land_mask_lt (p c : Nat) (hc : 0 < c) : p &&& (c - 1) < c :=
  Nat.lt_of_le_of_lt Nat.and_le_right (by omega)

theorem land_mask_pow (p j : Nat) : p &&& (2 ^ j - 1) = p % 2 ^ j :=
  Nat.and_pow_two_sub_one_eq_mod p j

/-- The probe loop stops only on a slot below `capacity` that is empty or holds the key. -/
theorem mapi_at_loop_some (m : mapi) (k : Nat) (hc : 0 < m.capacity) :
    ∀ fuel p q, mapi_at_loop m k fuel p = some q →
      q < m.capacity ∧ ((mapi_get m q).key = m.empty_key ∨ (mapi_get m q).key = k) := by
  intro fuel
  induction fuel with
  | zero => intro p q h; simp [mapi_at_loop] at h
  | succ n ih =>
    intro p q h
    simp only [mapi_at_loop, getKey] at h
    split at h
    · rename_i hs
      have hq : p &&& (m.capacity - 1) = q := by simpa using h
      subst hq
      exact ⟨land_mask_lt _ _ hc, hs⟩
    · exact ih _ _ h

theorem mapi_at_loop_none (m : mapi) (k : Nat) (j : Nat) (hc : m.capacity = 2 ^ j) :
    ∀ fuel p, mapi_at_loop m k fuel p = none → ∀ d, d < fuel →
      ¬ ((mapi_get m ((p + d) % m.capacity)).key = m.empty_key ∨
         (mapi_get m ((p + d) % m.capacity)).key = k) := by
  intro fuel
  induction fuel with
  | zero => intro p _ d hd; omega
  | succ n ih =>
    intro p h d hd
    simp only [mapi_at_loop, getKey] at h
    rw [hc, land_mask_pow, ← hc] at h
    split at h
    · simp at h
    · rename_i hs
      cases d with
      | zero => simpa using hs
      | succ d =>
        have := ih _ h d (by omega)
        have e : (p % m.capacity + 1 + d) % m.capacity = (p + (d + 1)) % m.capacity := by
          rw [Nat.add_assoc, Nat.add_mod, Nat.mod_mod, ← Nat.add_mod, Nat.add_comm 1 d]
        rwa [e] at this


theorem mod_reach (c p e : Nat) (he : e < c) : ∃ d, d < c ∧ (p + d) % c = e := by
  have hc : 0 < c := by omega
  refine ⟨(e + c - p % c) % c, Nat.mod_lt _ hc, ?_⟩
  rw [Nat.add_mod_mod]
  have h1 : p % c < c := Nat.mod_lt _ hc
  have h2 := Nat.mod_add_div p c
  have h3 : p + (e + c - p % c) = e + c * (p / c + 1) := by
    rw [Nat.mul_add, Nat.mul_one]
    generalize c * (p / c) = t at h2 ⊢
    omega
  rw [h3, Nat.add_mul_mod_self_left, Nat.mod_eq_of_lt he]

/-- With a power-of-two capacity the probe loop returns as soon as some slot is empty or
holds the key. -/
theorem mapi_at_loop_returns (m : mapi) (k j e p : Nat) (hc : m.capacity = 2 ^ j)
    (he : e < m.capacity)
    (hs : (mapi_get m e).key = m.empty_key ∨ (mapi_get m e).key = k) :
    ∃ q, mapi_at_loop m k m.capacity p = some q := by
  cases h : mapi_at_loop m k m.capacity p with
  | some q => exact ⟨q, rfl⟩
  | none =>
    obtain ⟨d, hd, hde⟩ := mod_reach m.capacity p e he
    have := mapi_at_loop_none m k j hc _ _ h d hd
    rw [hde] at this
    exact absurd hs this

/-- Changing one slot into a stopping slot for `k` keeps a probe that ended there. -/
theorem mapi_at_loop_congr_target (m m2 : mapi) (k p : Nat)
    (hcap : m2.capacity = m.capacity) (hek : m2.empty_key = m.empty_key)
    (hoth : ∀ q, q ≠ p → mapi_get m2 q = mapi_get m q)
    (hstop : (mapi_get m2 p).key = m2.empty_key ∨ (mapi_get m2 p).key = k) :
    ∀ fuel s, mapi_at_loop m k fuel s = some p → mapi_at_loop m2 k fuel s = some p := by
  intro fuel
  induction fuel with
  | zero => intro s h; simp [mapi_at_loop] at h
  | succ n ih =>
    intro s h
    simp only [mapi_at_loop, getKey] at h ⊢
    rw [hcap]
    by_cases hq : s &&& (m.capacity - 1) = p
    · rw [hq]; rw [if_pos hstop]
    · rw [hoth _ hq, hek]
      split at h
      · exact absurd (by simpa using h) hq
      · rename_i hs
        rw [if_neg hs]
        exact ih _ h

/-- Filling an empty slot keeps every probe that ended on another slot. -/
theorem mapi_at_loop_congr_other (m m2 : mapi) (k p i : Nat)
    (hcap : m2.capacity = m.capacity) (hek : m2.empty_key = m.empty_key)
    (hoth : ∀ q, q ≠ p → mapi_get m2 q = mapi_get m q)
    (hp : (mapi_get m p).key = m.empty_key) (hi : i ≠ p) :
    ∀ fuel s, mapi_at_loop m k fuel s = some i → mapi_at_loop m2 k fuel s = some i := by
  intro fuel
  induction fuel with
  | zero => intro s h; simp [mapi_at_loop] at h
  | succ n ih =>
    intro s h
    simp only [mapi_at_loop, getKey] at h ⊢
    rw [hcap]
    split at h
    · rename_i hs
      have hq : s &&& (m.capacity - 1) = i := by simpa using h
      rw [hq] at hs ⊢
      rw [hoth _ hi, hek, if_pos hs]
    · rename_i hs
      have hq : s &&& (m.capacity - 1) ≠ p := by
        intro hq; rw [hq] at hs; exact hs (Or.inl hp)
      rw [hoth _ hq, hek, if_neg hs]
      exact ih _ h


theorem map_getD_range (l : List mapi_object) :
    (List.range l.length).map (fun i => l.getD i default) = l := by
  refine List.ext_getElem (by simp) ?_
  · intro n h1 h2
    simp [List.getElem?_eq_getElem h2]

/-- On a buffer of `capacity` slots the live slots are counted on the buffer itself. -/
theorem live_count_eq_countP (m : mapi) (hlen : m.objects.length = m.capacity) :
    live_count m = m.objects.countP (fun o => decide (o.key ≠ m.empty_key)) := by
  unfold live_count
  rw [← List.countP_eq_length_filter]
  conv_rhs => rw [← map_getD_range m.objects]
  rw [List.countP_map, hlen]
  congr 1
  funext i
  simp [mapi_empty, mapi_get]

theorem live_count_le (m : mapi) : live_count m ≤ m.capacity := by
  unfold live_count
  exact (List.length_filter_le _ _).trans (by simp)

/-- A table that is not full has an empty slot. -/
theorem exists_empty_of_live_count_lt (m : mapi) (h : live_count m < m.capacity) :
    ∃ e, e < m.capacity ∧ (mapi_get m e).key = m.empty_key := by
  unfold live_count at h
  have h2 : ((List.range m.capacity).filter fun i => !mapi_empty m i).length
      < (List.range m.capacity).length := by simpa using h
  obtain ⟨x, hx, hp⟩ := List.length_filter_lt_length_iff_exists.mp h2
  refine ⟨x, by simpa using hx, ?_⟩
  simpa [mapi_empty] using hp

theorem live_count_set (m : mapi) (p : Nat) (x : mapi_object)
    (hlen : m.objects.length = m.capacity) (hp : p < m.capacity) (sz : Nat) :
    live_count { m with objects := m.objects.set p x, size := sz } =
      live_count m - (if (mapi_get m p).key ≠ m.empty_key then 1 else 0) +
        (if x.key ≠ m.empty_key then 1 else 0) := by
  rw [live_count_eq_countP _ (by simpa using hlen), live_count_eq_countP _ hlen]
  simp only
  rw [List.countP_set _ _ _ _ (by omega)]
  have hp2 : p < m.objects.length := by omega
  have : m.objects[p] = mapi_get m p := by
    unfold mapi_get; simp [List.getD_eq_getElem?_getD, List.getElem?_eq_getElem hp2]
  rw [this]
  simp


theorem smear_step (s y d : Nat)
    (h : ∀ j, y.testBit j = true ↔ ∃ t, t < d ∧ s.testBit (j + t) = true) :
    ∀ j, (y ||| y >>> d).testBit j = true ↔ ∃ t, t < 2 * d ∧ s.testBit (j + t) = true := by
  intro j
  rw [Nat.testBit_or, Nat.testBit_shiftRight, Bool.or_eq_true, h, h]
  constructor
  · rintro (⟨t, ht, hb⟩ | ⟨t, ht, hb⟩)
    · exact ⟨t, by omega, hb⟩
    · refine ⟨d + t, by omega, ?_⟩
      have e : j + (d + t) = d + j + t := by omega
      rwa [e]
  · rintro ⟨t, ht, hb⟩
    by_cases hlt : t < d
    · exact Or.inl ⟨t, hlt, hb⟩
    · refine Or.inr ⟨t - d, by omega, ?_⟩
      have e : d + j + (t - d) = j + t := by omega
      rwa [e]

theorem testBit_log2_self (s : Nat) (hs : s ≠ 0) : s.testBit (Nat.log2 s) = true := by
  rw [Nat.testBit_to_div_mod]
  have h1 := Nat.log2_self_le hs
  have h2 := @Nat.lt_log2_self s
  have h3 : s / 2 ^ Nat.log2 s = 1 := by
    apply Nat.div_eq_of_lt_le
    · simpa using h1
    · rw [Nat.pow_succ] at h2; omega
  simp [h3]

theorem testBit_above_log2 (s i : Nat) (hi : Nat.log2 s < i) : s.testBit i = false := by
  apply Nat.testBit_lt_two_pow
  have h2 := @Nat.lt_log2_self s
  exact Nat.lt_of_lt_of_le h2 (Nat.pow_le_pow_right (by decide) hi)

/-- The bit-smearing cascade of `mapi_roundup_size` fills every bit below the top bit. -/
theorem smear_eq (s : Nat) (hs : s < 2 ^ 64) (h0 : s ≠ 0) :
    (let s := s ||| (s >>> 1)
     let s := s ||| (s >>> 2)
     let s := s ||| (s >>> 4)
     let s := s ||| (s >>> 8)
     let s := s ||| (s >>> 16)
     let s := s ||| (s >>> 32)
     s) = 2 ^ (Nat.log2 s + 1) - 1 := by
  have b0 : ∀ j, s.testBit j = true ↔ ∃ t, t < 1 ∧ s.testBit (j + t) = true := by
    intro j
    constructor
    · intro h; exact ⟨0, by omega, by simpa using h⟩
    · rintro ⟨t, ht, hb⟩
      have : t = 0 := by omega
      subst this; simpa using hb
  have b1 := smear_step s _ 1 b0
  have b2 := smear_step s _ 2 b1
  have b3 := smear_step s _ 4 b2
  have b4 := smear_step s _ 8 b3
  have b5 := smear_step s _ 16 b4
  have b6 := smear_step s _ 32 b5
  have hL : Nat.log2 s < 64 := (Nat.log2_lt h0).mpr hs
  apply Nat.eq_of_testBit_eq
  intro j
  rw [Nat.testBit_two_pow_sub_one]
  by_cases hj : j < Nat.log2 s + 1
  · rw [decide_eq_true hj]
    apply (b6 j).mpr
    refine ⟨Nat.log2 s - j, by omega, ?_⟩
    have e : j + (Nat.log2 s - j) = Nat.log2 s := by omega
    rw [e]
    exact testBit_log2_self s h0
  · rw [decide_eq_false hj]
    cases hb : Nat.testBit _ j with
    | false => rfl
    | true =>
      obtain ⟨t, _, ht⟩ := (b6 j).mp hb
      rw [testBit_above_log2 s (j + t) (by omega)] at ht
      exact absurd ht (by simp)


theorem roundup_unfold (n : Nat) :
    mapi_roundup_size n =
      if (n + 2 ^ 64 - 1) % 2 ^ 64 = 0 then 1
      else 2 ^ (Nat.log2 ((n + 2 ^ 64 - 1) % 2 ^ 64) + 1) % 2 ^ 64 := by
  unfold mapi_roundup_size
  have hlt : (n + 2 ^ 64 - 1) % 2 ^ 64 < 2 ^ 64 := Nat.mod_lt _ (by decide)
  generalize (n + 2 ^ 64 - 1) % 2 ^ 64 = s at hlt ⊢
  by_cases h0 : s = 0
  · subst h0; simp
  · rw [if_neg h0]
    have h := smear_eq s hlt h0
    dsimp only at h ⊢
    rw [h]
    have : 0 < 2 ^ (Nat.log2 s + 1) := Nat.two_pow_pos _
    rw [Nat.sub_add_cancel this]

theorem roundup_lt (n : Nat) : mapi_roundup_size n < 2 ^ 64 := by
  unfold mapi_roundup_size
  exact Nat.mod_lt _ (by decide)

/-- The result of `mapi_roundup_size` is 0 or a power of two. -/
theorem roundup_cases (n : Nat) :
    mapi_roundup_size n = 0 ∨ ∃ j, mapi_roundup_size n = 2 ^ j := by
  rw [roundup_unfold]
  have hlt : (n + 2 ^ 64 - 1) % 2 ^ 64 < 2 ^ 64 := Nat.mod_lt _ (by decide)
  generalize (n + 2 ^ 64 - 1) % 2 ^ 64 = s at hlt ⊢
  by_cases h0 : s = 0
  · rw [if_pos h0]; exact Or.inr ⟨0, rfl⟩
  · rw [if_neg h0]
    have hL : Nat.log2 s < 64 := (Nat.log2_lt h0).mpr hlt
    by_cases h63 : Nat.log2 s = 63
    · left; rw [h63]; rfl
    · right
      refine ⟨Nat.log2 s + 1, Nat.mod_eq_of_lt ?_⟩
      exact Nat.pow_lt_pow_right (by decide) (by omega)

/-- On `1 ≤ n ≤ 2 ^ 63` the result is the least power of two that is at least `n`. -/
theorem roundup_spec (n : Nat) (h1 : 1 ≤ n) (h2 : n ≤ 2 ^ 63) :
    ∃ j, mapi_roundup_size n = 2 ^ j ∧ n ≤ 2 ^ j ∧ (∀ i, n ≤ 2 ^ i → 2 ^ j ≤ 2 ^ i) := by
  rw [roundup_unfold]
  have hs : (n + 2 ^ 64 - 1) % 2 ^ 64 = n - 1 := by
    have : n + 2 ^ 64 - 1 = (n - 1) + 2 ^ 64 := by omega
    rw [this, Nat.add_mod_right, Nat.mod_eq_of_lt (by omega)]
  rw [hs]
  by_cases h0 : n - 1 = 0
  · rw [if_pos h0]
    refine ⟨0, rfl, by omega, ?_⟩
    intro i _
    exact Nat.pow_le_pow_right (by decide) (Nat.zero_le i)
  · rw [if_neg h0]
    have hlo := Nat.log2_self_le h0
    have hhi := @Nat.lt_log2_self (n - 1)
    have hL : Nat.log2 (n - 1) < 63 := (Nat.log2_lt h0).mpr (by omega)
    refine ⟨Nat.log2 (n - 1) + 1, Nat.mod_eq_of_lt ?_, by omega, ?_⟩
    · exact Nat.pow_lt_pow_right (by decide) (by omega)
    · intro i hi
      apply Nat.pow_le_pow_right (by decide)
      by_contra hcon
      have : i ≤ Nat.log2 (n - 1) := by omega
      have := Nat.pow_le_pow_right (show 0 < 2 by decide) this
      omega


theorem range'_filter_cons (p : Nat → Bool) (o c : Nat) (h : o < c) :
    (List.range' o (c - o)).filter p =
      if p o then o :: (List.range' (o + 1) (c - (o + 1))).filter p
      else (List.range' (o + 1) (c - (o + 1))).filter p := by
  have e : c - o = (c - (o + 1)) + 1 := by omega
  rw [e, List.range'_succ, List.filter_cons]

/-- The skip loop stops on the first live slot from `o` on, or at the end. -/
theorem mapi_skip_loop_spec (m : mapi) :
    ∀ fuel o, o ≤ m.capacity → m.capacity - o ≤ fuel →
      o ≤ mapi_skip_loop m fuel o ∧ mapi_skip_loop m fuel o ≤ m.capacity ∧
      (mapi_skip_loop m fuel o < m.capacity →
        (mapi_get m (mapi_skip_loop m fuel o)).key ≠ m.empty_key) ∧
      (List.range' o (m.capacity - o)).filter (fun i => !mapi_empty m i) =
        (List.range' (mapi_skip_loop m fuel o) (m.capacity - mapi_skip_loop m fuel o)).filter
          (fun i => !mapi_empty m i) := by
  intro fuel
  induction fuel with
  | zero =>
    intro o h1 h2
    have : o = m.capacity := by omega
    simp [mapi_skip_loop, this]
  | succ n ih =>
    intro o h1 h2
    simp only [mapi_skip_loop, mapi_end, mapi_inc]
    split
    · rename_i hc
      obtain ⟨a, b, c, d⟩ := ih (o + 1) (by omega) (by omega)
      refine ⟨by omega, b, c, ?_⟩
      rw [range'_filter_cons _ o _ hc.1, ← d]
      simp [mapi_empty, hc.2]
    · rename_i hc
      refine ⟨Nat.le_refl _, h1, ?_, rfl⟩
      intro hlt hk
      exact hc ⟨hlt, hk⟩

theorem mapi_iter_loop_spec (m : mapi) :
    ∀ fuel o, o ≤ m.capacity → m.capacity - o ≤ fuel →
      (o < m.capacity → (mapi_get m o).key ≠ m.empty_key) →
      mapi_iter_loop m fuel o =
        (List.range' o (m.capacity - o)).filter (fun i => !mapi_empty m i) := by
  intro fuel
  induction fuel with
  | zero =>
    intro o h1 h2 _
    have : o = m.capacity := by omega
    simp [mapi_iter_loop, this]
  | succ n ih =>
    intro o h1 h2 h3
    simp only [mapi_iter_loop, mapi_end]
    split
    · rename_i hc
      obtain ⟨a, b, c, d⟩ := mapi_skip_loop_spec m m.capacity (o + 1) (by omega) (by omega)
      have hn := ih (mapi_next m o) b (by unfold mapi_next mapi_skip mapi_inc; omega) c
      rw [hn, range'_filter_cons _ o _ hc]
      have : (!mapi_empty m o) = true := by simp [mapi_empty, h3 hc]
      rw [if_pos this, d]
      rfl
    · rename_i hc
      have : o = m.capacity := by omega
      simp [this]

/-- The traversal `mapi_begin`, `mapi_next`, ... visits the live slots in ascending order. -/
theorem mapi_iter_eq (m : mapi) :
    mapi_iter m = (List.range m.capacity).filter (fun i => !mapi_empty m i) := by
  obtain ⟨_, b, c, d⟩ := mapi_skip_loop_spec m m.capacity 0 (Nat.zero_le _) (by omega)
  unfold mapi_iter
  rw [mapi_iter_loop_spec m m.capacity (mapi_begin m) b (by omega) c, List.range_eq_range']
  simpa using d.symm

/-- The loop of `mapi_skip` has left its loop condition when the fuel `capacity` is over. -/
theorem mapi_skip_exit (m : mapi) (o : Nat) :
    ¬ (mapi_skip m o < mapi_end m ∧ (mapi_get m (mapi_skip m o)).key = m.empty_key) := by
  unfold mapi_skip mapi_end
  by_cases ho : o ≤ m.capacity
  · obtain ⟨_, _, c, _⟩ := mapi_skip_loop_spec m m.capacity o ho (by omega)
    intro h
    exact c h.1 h.2
  · have : ∀ fuel, mapi_skip_loop m fuel o = o := by
      intro fuel
      cases fuel with
      | zero => rfl
      | succ n =>
        simp only [mapi_skip_loop, mapi_end]
        rw [if_neg]
        intro h; omega
    rw [this]
    intro h; omega


theorem mapi_get_of_set (m m2 : mapi) (p q : Nat) (x : mapi_object)
    (hobj : m2.objects = m.objects.set p x) (hp : p < m.objects.length) :
    mapi_get m2 q = if q = p then x else mapi_get m q := by
  unfold mapi_get
  rw [hobj]
  simp only [List.getD_eq_getElem?_getD, List.getElem?_set]
  by_cases h : p = q
  · subst h; simp [hp]
  · have : ¬ q = p := fun h2 => h h2.symm
    simp [h, this]

theorem mapi_at_pos (m : mapi) (k : Nat) (hc : 0 < m.capacity) :
    mapi_at m k = (mapi_at_loop m k m.capacity (hash k)).map some := by
  unfold mapi_at
  simp [Nat.ne_of_gt hc]

theorem mapi_at_eq_some (m : mapi) (k p : Nat) (h : mapi_at m k = some (some p)) :
    0 < m.capacity ∧ mapi_at_loop m k m.capacity (hash k) = some p := by
  unfold mapi_at at h
  by_cases hc : m.capacity = 0
  · simp [hc] at h
  · simp only [hc, if_false] at h
    refine ⟨by omega, ?_⟩
    cases hl : mapi_at_loop m k m.capacity (hash k) with
    | none => simp [hl] at h
    | some q => simp [hl] at h; rw [h]

theorem mapi_at_stop (m : mapi) (k p : Nat) (h : mapi_at m k = some (some p)) :
    p < m.capacity ∧ ((mapi_get m p).key = m.empty_key ∨ (mapi_get m p).key = k) := by
  obtain ⟨hc, hl⟩ := mapi_at_eq_some m k p h
  exact mapi_at_loop_some m k hc _ _ _ hl

/-- On a power-of-two capacity with an empty slot `mapi_at` returns a slot. -/
theorem mapi_at_total (m : mapi) (k j : Nat) (hc : m.capacity = 2 ^ j)
    (hex : ∃ e, e < m.capacity ∧ (mapi_get m e).key = m.empty_key) :
    ∃ p, mapi_at m k = some (some p) := by
  obtain ⟨e, he, hk⟩ := hex
  obtain ⟨q, hq⟩ := mapi_at_loop_returns m k j e (hash k) hc he (Or.inl hk)
  exact ⟨q, by rw [mapi_at_pos m k (by omega), hq]; rfl⟩

theorem mapi_find_eq_some (m : mapi) (k i : Nat) :
    mapi_find m k = some (some i) ↔
      mapi_at m k = some (some i) ∧ (mapi_get m i).key ≠ m.empty_key := by
  unfold mapi_find
  cases h : mapi_at m k with
  | none => simp
  | some o =>
    cases o with
    | none => simp
    | some p =>
      simp only [Option.map_some', mapi_empty]
      by_cases hp : (mapi_get m p).key = m.empty_key
      · simp [hp]
        intro hpi; rw [← hpi]; simpa using hp
      · simp [hp]
        intro hpi; rw [← hpi]; exact hp

theorem mapi_find_of_at_empty (m : mapi) (k p : Nat) (h : mapi_at m k = some (some p))
    (hp : (mapi_get m p).key = m.empty_key) : mapi_find m k = some none := by
  unfold mapi_find
  simp [h, mapi_empty, hp]

theorem mapi_find_of_at_live (m : mapi) (k p : Nat) (h : mapi_at m k = some (some p))
    (hp : (mapi_get m p).key ≠ m.empty_key) : mapi_find m k = some (some p) :=
  (mapi_find_eq_some m k p).mpr ⟨h, hp⟩

/-- A found slot holds the key. -/
theorem mapi_find_key (m : mapi) (k i : Nat) (h : mapi_find m k = some (some i)) :
    i < m.capacity ∧ (mapi_get m i).key = k ∧ k ≠ m.empty_key := by
  obtain ⟨hat, hl⟩ := (mapi_find_eq_some m k i).mp h
  obtain ⟨hi, hs⟩ := mapi_at_stop m k i hat
  rcases hs with hs | hs
  · exact absurd hs hl
  · exact ⟨hi, hs, by rw [← hs]; exact hl⟩

/-- A key that no slot holds is not found. -/
theorem mapi_find_of_not_stored (m : mapi) (k j : Nat)
    (hc : m.capacity = 0 ∨ m.capacity = 2 ^ j)
    (hex : 0 < m.capacity → ∃ e, e < m.capacity ∧ (mapi_get m e).key = m.empty_key)
    (hns : ∀ i, i < m.capacity → (mapi_get m i).key ≠ m.empty_key → (mapi_get m i).key ≠ k) :
    mapi_find m k = some none := by
  by_cases h0 : m.capacity = 0
  · unfold mapi_find mapi_at; simp [h0]
  · have hc2 : m.capacity = 2 ^ j := by rcases hc with h | h; exact absurd h h0; exact h
    obtain ⟨p, hp⟩ := mapi_at_total m k j hc2 (hex (by omega))
    obtain ⟨hlt, hs⟩ := mapi_at_stop m k p hp
    by_cases hl : (mapi_get m p).key = m.empty_key
    · exact mapi_find_of_at_empty m k p hp hl
    · rcases hs with hs | hs
      · exact absurd hs hl
      · exact absurd hs (hns p hlt hl)

theorem findable_distinct (m : mapi) (hF : Findable m) : DistinctKeys m := by
  intro i hi j hj hl he
  have h1 := hF i hi hl
  have h2 := hF j hj (by rw [← he]; exact hl)
  rw [← he, h1] at h2
  simpa using h2


theorem mapi_reserve_with_nogrow (R : mapi → Nat → Option (mapi × Int)) (m : mapi) (s : Nat)
    (h : 2 * s ≤ m.capacity) (hc : m.capacity < 2 ^ 64) :
    mapi_reserve_with R m s = some (m, 0) := by
  unfold mapi_reserve_with
  have e : (s <<< 1) % 2 ^ 64 = 2 * s := by
    rw [Nat.shiftLeft_eq, Nat.pow_one, Nat.mul_comm, Nat.mod_eq_of_lt (by omega)]
  simp only [e]
  rw [if_neg (by omega)]

/-- The second half of `mapi_insert`, after a `mapi_reserve` that returned 0. -/
theorem mapi_insert_with_of_reserve (R : mapi → Nat → Option (mapi × Int)) (m m1 : mapi)
    (o : mapi_object) (p : Nat)
    (hres : mapi_reserve_with R m ((m.size + 1) % 2 ^ 64) = some (m1, 0))
    (hat : mapi_at m1 o.key = some (some p)) :
    mapi_insert_with R m o =
      if (mapi_get m1 p).key = m1.empty_key then
        some ({ m1 with objects := m1.objects.set p o, size := (m1.size + 1) % 2 ^ 64 }, some p)
      else some (if m1.release then { m1 with released := m1.released ++ [o] } else m1, none) := by
  unfold mapi_insert_with
  rw [hres]
  simp only [getKey, clone, hat]
  rw [if_neg (by decide)]

theorem mapi_insert_with_of_fail (R : mapi → Nat → Option (mapi × Int)) (m m1 : mapi)
    (o : mapi_object)
    (hres : mapi_reserve_with R m ((m.size + 1) % 2 ^ 64) = some (m1, -1)) :
    mapi_insert_with R m o = some (m1, none) := by
  unfold mapi_insert_with
  rw [hres]
  simp

/-- Placing a record in the empty slot its probe ended on keeps every stored record
findable, and the new record is found in that slot. -/
theorem findable_place (m m2 : mapi) (o : mapi_object) (p : Nat)
    (hobj : m2.objects = m.objects.set p o) (hcap : m2.capacity = m.capacity)
    (hek : m2.empty_key = m.empty_key) (hlen : m.objects.length = m.capacity)
    (hat : mapi_at m o.key = some (some p)) (hp : (mapi_get m p).key = m.empty_key)
    (hk : o.key ≠ m.empty_key) (hF : Findable m) :
    Findable m2 ∧ mapi_find m2 o.key = some (some p) := by
  obtain ⟨hpos, hloop⟩ := mapi_at_eq_some m o.key p hat
  obtain ⟨hpc, _⟩ := mapi_at_stop m o.key p hat
  have hget : ∀ q, mapi_get m2 q = if q = p then o else mapi_get m q :=
    fun q => mapi_get_of_set m m2 p q o hobj (by omega)
  have hoth : ∀ q, q ≠ p → mapi_get m2 q = mapi_get m q := by
    intro q hq; rw [hget, if_neg hq]
  have hgp : mapi_get m2 p = o := by rw [hget, if_pos rfl]
  have hnew : mapi_find m2 o.key = some (some p) := by
    apply mapi_find_of_at_live
    · rw [mapi_at_pos m2 _ (by omega), hcap]
      rw [mapi_at_loop_congr_target m m2 o.key p hcap hek hoth (Or.inr (by rw [hgp])) _ _ hloop]
      rfl
    · rw [hgp, hek]; exact hk
  refine ⟨?_, hnew⟩
  intro i hi hl
  by_cases hip : i = p
  · subst hip; rw [hgp]; exact hnew
  · rw [hoth i hip] at hl ⊢
    rw [hek] at hl
    rw [hcap] at hi
    obtain ⟨hat_i, _⟩ := (mapi_find_eq_some m _ i).mp (hF i hi hl)
    obtain ⟨_, hloop_i⟩ := mapi_at_eq_some m _ i hat_i
    apply mapi_find_of_at_live
    · rw [mapi_at_pos m2 _ (by omega), hcap]
      rw [mapi_at_loop_congr_other m m2 _ p i hcap hek hoth hp hip _ _ hloop_i]
      rfl
    · rw [hoth i hip, hek]; exact hl

theorem stored_place (m m2 : mapi) (o : mapi_object) (p : Nat)
    (hobj : m2.objects = m.objects.set p o) (hcap : m2.capacity = m.capacity)
    (hek : m2.empty_key = m.empty_key) (hlen : m.objects.length = m.capacity)
    (hpc : p < m.capacity) (hp : (mapi_get m p).key = m.empty_key)
    (hk : o.key ≠ m.empty_key) (r : mapi_object) :
    Stored m2 r ↔ Stored m r ∨ r = o := by
  have hget : ∀ q, mapi_get m2 q = if q = p then o else mapi_get m q :=
    fun q => mapi_get_of_set m m2 p q o hobj (by omega)
  unfold Stored
  rw [hcap, hek]
  constructor
  · rintro ⟨i, hi, hr, hl⟩
    rw [hget] at hr
    by_cases hip : i = p
    · rw [if_pos hip] at hr; exact Or.inr hr.symm
    · rw [if_neg hip] at hr; exact Or.inl ⟨i, hi, hr, hl⟩
  · rintro (⟨i, hi, hr, hl⟩ | hr)
    · have hip : i ≠ p := by
        intro hip; rw [hip] at hr; rw [← hr] at hl; exact hl hp
      exact ⟨i, hi, by rw [hget, if_neg hip]; exact hr, hl⟩
    · exact ⟨p, hpc, by rw [hget, if_pos rfl]; exact hr.symm, by rw [hr]; exact hk⟩


theorem probing_exists_empty (m : mapi) (hP : Probing m) (hroom : 2 * m.size < m.capacity) :
    ∃ e, e < m.capacity ∧ (mapi_get m e).key = m.empty_key := by
  obtain ⟨_, _, _, hs⟩ := hP
  exact exists_empty_of_live_count_lt m (by omega)

/-- One `mapi_insert` that needs no growth: the record is placed in the empty slot its probe
ends on, or rejected when the probe ends on its key. -/
theorem insert_step (R : mapi → Nat → Option (mapi × Int)) (m : mapi) (o : mapi_object)
    (hP : Probing m) (hroom : 2 * (m.size + 1) ≤ m.capacity) (hk : o.key ≠ m.empty_key) :
    ∃ p, p < m.capacity ∧ mapi_at m o.key = some (some p) ∧
      (((mapi_get m p).key = m.empty_key ∧
          mapi_insert_with R m o =
            some ({ m with objects := m.objects.set p o, size := m.size + 1 }, some p) ∧
          Probing { m with objects := m.objects.set p o, size := m.size + 1 }) ∨
        ((mapi_get m p).key = o.key ∧
          mapi_insert_with R m o =
            some (if m.release then { m with released := m.released ++ [o] } else m, none))) := by
  have hex := probing_exists_empty m hP (by omega)
  obtain ⟨hlen, ⟨j, hj⟩, h64, hs⟩ := hP
  obtain ⟨p, hat⟩ := mapi_at_total m o.key j hj hex
  obtain ⟨hpc, hstop⟩ := mapi_at_stop m o.key p hat
  have hres := mapi_reserve_with_nogrow R m ((m.size + 1) % 2 ^ 64)
    (by rw [Nat.mod_eq_of_lt (by omega)]; exact hroom) h64
  have hins := mapi_insert_with_of_reserve R m m o p hres hat
  rw [Nat.mod_eq_of_lt (show m.size + 1 < 2 ^ 64 by omega)] at hins
  refine ⟨p, hpc, hat, ?_⟩
  by_cases hp : (mapi_get m p).key = m.empty_key
  · left
    rw [if_pos hp] at hins
    refine ⟨hp, hins, ?_, ⟨j, hj⟩, h64, ?_⟩
    · simpa using hlen
    · rw [live_count_set m p o hlen hpc, if_neg (by simpa using hp), if_pos hk]
      simp only
      omega
  · right
    rw [if_neg hp] at hins
    rcases hstop with h | h
    · exact absurd h hp
    · exact ⟨h, hins⟩

/-- Re-inserting a list of records into a table with enough room never fails to return
and keeps the table well formed. -/
theorem fold_insert_wf (R : mapi → Nat → Option (mapi × Int)) :
    ∀ (rs : List mapi_object) (nm : mapi), Probing nm →
      2 * (nm.size + rs.length) ≤ nm.capacity → (∀ r, r ∈ rs → r.key ≠ nm.empty_key) →
      ∃ nm2, rs.foldlM (fun nm r => (mapi_insert_with R nm r).map Prod.fst) nm = some nm2 ∧
        Probing nm2 ∧ nm2.capacity = nm.capacity ∧ nm2.empty_key = nm.empty_key ∧
        nm2.release = nm.release ∧ nm2.object_size = nm.object_size ∧
        nm2.size ≤ nm.size + rs.length := by
  intro rs
  induction rs with
  | nil => intro nm hP _ _; exact ⟨nm, rfl, hP, rfl, rfl, rfl, rfl, by simp⟩
  | cons r rs ih =>
    intro nm hP hroom hk
    simp only [List.length_cons] at hroom
    obtain ⟨p, hpc, hat, h⟩ := insert_step R nm r hP (by omega) (hk r (by simp))
    rcases h with ⟨_, hins, hP2⟩ | ⟨_, hins⟩
    · obtain ⟨nm2, hf, a, b, c, d, e, f⟩ := ih _ hP2 (by simp only; omega)
        (fun x hx => hk x (by simp [hx]))
      refine ⟨nm2, ?_, a, b, c, d, e, ?_⟩
      · rw [List.foldlM_cons, hins]; simpa using hf
      · simp only at f; simp only [List.length_cons]; omega
    · have h3 : ∀ m3 : mapi, m3 = (if nm.release then { nm with released := nm.released ++ [r] }
          else nm) → Probing m3 ∧ m3.size = nm.size ∧ m3.capacity = nm.capacity ∧
          m3.empty_key = nm.empty_key ∧ m3.release = nm.release ∧
          m3.object_size = nm.object_size := by
        intro m3 hm3
        rw [hm3]
        split
        · exact ⟨hP, rfl, rfl, rfl, rfl, rfl⟩
        · exact ⟨hP, rfl, rfl, rfl, rfl, rfl⟩
      obtain ⟨hP3, s3, c3, e3, r3, o3⟩ := h3 _ rfl
      obtain ⟨nm2, hf, a, b, c, d, e, f⟩ := ih _ hP3 (by rw [s3, c3]; omega)
        (fun x hx => by rw [e3]; exact hk x (by simp [hx]))
      refine ⟨nm2, ?_, a, by rw [b, c3], by rw [c, e3], by rw [d, r3], by rw [e, o3], ?_⟩
      · rw [List.foldlM_cons, hins]; simpa using hf
      · rw [s3] at f; simp only [List.length_cons]; omega


theorem mapi_rehash_fuel_succ (alloc : Nat → Bool) (fuel : Nat) (m : mapi) (n : Nat) :
    mapi_rehash_fuel alloc (fuel + 1) m n =
      if mapi_roundup_size n > m.capacity then
        if !alloc (rehash_capacity m n) then some (m, -1)
        else if buffer_bytes (rehash_capacity m n) m.object_size
            < rehash_capacity m n * m.object_size then none
        else
          match ((mapi_iter m).map (mapi_get m)).foldlM
              (fun nm r => (mapi_insert_with (mapi_rehash_fuel alloc fuel) nm r).map Prod.fst)
              (rehash_target m (rehash_capacity m n)) with
          | none => none
          | some nm => some (nm, 0)
      else some (m, 0) := by
  rw [List.foldlM_map]
  rfl

theorem capacity_shape_mp (c : Nat) (h : capacity_shape c) :
    c = 0 ∨ (MAPI_MIN_CAPACITY ≤ c ∧ ∃ j, c = 2 ^ j) := by
  rcases h with h | ⟨h1, j, _, h2⟩
  · exact Or.inl h
  · exact Or.inr ⟨h1, j, h2⟩

theorem capacity_shape_mpr (c : Nat) (h64 : c < 2 ^ 64)
    (h : c = 0 ∨ (MAPI_MIN_CAPACITY ≤ c ∧ ∃ j, c = 2 ^ j)) : capacity_shape c := by
  rcases h with h | ⟨h1, j, h2⟩
  · exact Or.inl h
  · refine Or.inr ⟨h1, j, ?_, h2⟩
    rw [h2] at h64
    exact (Nat.pow_lt_pow_iff_right (by decide)).mp h64

theorem rehash_capacity_shape (m : mapi) (n : Nat) (hs : capacity_shape m.capacity)
    (hg : mapi_roundup_size n > m.capacity) :
    (∃ j, rehash_capacity m n = 2 ^ j) ∧ MAPI_MIN_CAPACITY ≤ rehash_capacity m n ∧
      m.capacity < rehash_capacity m n ∧ mapi_roundup_size n ≤ rehash_capacity m n ∧
      rehash_capacity m n < 2 ^ 64 := by
  have hlt := roundup_lt n
  have hr : ∃ j, mapi_roundup_size n = 2 ^ j := by
    rcases roundup_cases n with h | h
    · omega
    · exact h
  unfold rehash_capacity MAPI_MIN_CAPACITY
  by_cases h0 : m.capacity = 0
  · rw [if_pos h0]
    by_cases h8 : mapi_roundup_size n < 8
    · rw [if_pos h8]; exact ⟨⟨3, rfl⟩, by omega, by omega, by omega, by omega⟩
    · rw [if_neg h8]; exact ⟨hr, by omega, by omega, by omega, by omega⟩
  · rw [if_neg h0]
    rcases capacity_shape_mp _ hs with h | ⟨h8, _⟩
    · exact absurd h h0
    · unfold MAPI_MIN_CAPACITY at h8
      exact ⟨hr, by omega, by omega, by omega, by omega⟩

theorem live_count_rehash_target (m : mapi) (c : Nat) : live_count (rehash_target m c) = 0 := by
  rw [live_count_eq_countP _ (by simp [rehash_target])]
  simp [rehash_target, List.countP_eq_zero]

theorem probing_rehash_target (m : mapi) (c j : Nat) (hc : c = 2 ^ j) (h64 : c < 2 ^ 64) :
    Probing (rehash_target m c) :=
  ⟨by simp [rehash_target], ⟨j, hc⟩, h64, by rw [live_count_rehash_target]; rfl⟩

theorem mem_iter_records (m : mapi) (r : mapi_object) :
    r ∈ (mapi_iter m).map (mapi_get m) ↔ Stored m r := by
  rw [mapi_iter_eq]
  unfold Stored
  simp only [List.mem_map, List.mem_filter, List.mem_range, mapi_empty]
  constructor
  · rintro ⟨i, ⟨hi, hl⟩, hr⟩
    refine ⟨i, hi, hr, ?_⟩
    rw [← hr]; simpa using hl
  · rintro ⟨i, hi, hr, hl⟩
    refine ⟨i, ⟨hi, ?_⟩, hr⟩
    rw [← hr] at hl; simpa using hl

theorem length_iter (m : mapi) : (mapi_iter m).length = live_count m := by
  rw [mapi_iter_eq]; rfl


/-- The second half of `mapi_insert` on the table `m1` left by a `mapi_reserve` that
returned 0 and made room. -/
theorem insert_after_reserve (R : mapi → Nat → Option (mapi × Int)) (m m1 : mapi)
    (o : mapi_object)
    (hres : mapi_reserve_with R m ((m.size + 1) % 2 ^ 64) = some (m1, 0))
    (hP : Probing m1) (hroom : 2 * (m1.size + 1) ≤ m1.capacity) :
    ∃ p, p < m1.capacity ∧ mapi_at m1 o.key = some (some p) ∧
      (((mapi_get m1 p).key = m1.empty_key ∧
          mapi_insert_with R m o =
            some ({ m1 with objects := m1.objects.set p o, size := m1.size + 1 }, some p) ∧
          (o.key ≠ m1.empty_key →
            Probing { m1 with objects := m1.objects.set p o, size := m1.size + 1 })) ∨
        ((mapi_get m1 p).key = o.key ∧ (mapi_get m1 p).key ≠ m1.empty_key ∧
          mapi_insert_with R m o =
            some (if m1.release then { m1 with released := m1.released ++ [o] } else m1,
              none))) := by
  have hex := probing_exists_empty m1 hP (by omega)
  obtain ⟨hlen, ⟨j, hj⟩, h64, hs⟩ := hP
  obtain ⟨p, hat⟩ := mapi_at_total m1 o.key j hj hex
  obtain ⟨hpc, hstop⟩ := mapi_at_stop m1 o.key p hat
  have hins := mapi_insert_with_of_reserve R m m1 o p hres hat
  rw [Nat.mod_eq_of_lt (show m1.size + 1 < 2 ^ 64 by omega)] at hins
  refine ⟨p, hpc, hat, ?_⟩
  by_cases hp : (mapi_get m1 p).key = m1.empty_key
  · left
    rw [if_pos hp] at hins
    refine ⟨hp, hins, ?_⟩
    intro hk
    refine ⟨?_, ⟨j, hj⟩, h64, ?_⟩
    · simpa using hlen
    · rw [live_count_set m1 p o hlen hpc, if_neg (by simpa using hp), if_pos hk]
      simp only
      omega
  · right
    rw [if_neg hp] at hins
    rcases hstop with h | h
    · exact absurd h hp
    · exact ⟨h, hp, hins⟩

theorem wf_probing (m : mapi) (hWF : WF m) (hc : 0 < m.capacity) : Probing m := by
  obtain ⟨hlen, hsh, h63, hs, _⟩ := hWF
  rcases capacity_shape_mp _ hsh with h | ⟨_, hj⟩
  · omega
  · exact ⟨hlen, hj, by omega, hs⟩

theorem wf_of_eq (m m2 : mapi) (hWF : WF m) (ho : m2.objects = m.objects)
    (hc : m2.capacity = m.capacity) (hs : m2.size = m.size) (he : m2.empty_key = m.empty_key) :
    WF m2 := by
  have hl : live_count m2 = live_count m := by
    unfold live_count mapi_empty mapi_get
    rw [ho, hc, he]
  unfold WF at hWF ⊢
  rw [ho, hc, hs, hl]
  exact hWF

theorem buffer_fits_bytes (c s : Nat) (h : BufferFits c s) : ¬ (buffer_bytes c s < c * s) := by
  unfold BufferFits at h
  unfold buffer_bytes MAPI_ROUNDUP
  generalize c * s = x at h ⊢
  omega

theorem alloc_fits_bounded (s : Nat) (alloc : Nat → Bool) (hs : sizeof_mapi_object ≤ s)
    (hA : AllocFits s alloc) : AllocBounded alloc := by
  intro c hc
  have h := hA c hc
  unfold BufferFits at h
  unfold sizeof_mapi_object at hs
  have h2 : c * 4 ≤ c * s := Nat.mul_le_mul_left c hs
  omega

theorem alloc_fits_spec (s : Nat) : AllocFits s (alloc_fits s) := by
  intro c hc
  simpa [alloc_fits] using hc

theorem mapi_erase_loop_object_size :
    ∀ fuel (m : mapi) (o i : Nat) (m2 : mapi) (o2 : Nat),
      mapi_erase_loop fuel m o i = some (m2, o2) → m2.object_size = m.object_size := by
  intro fuel
  induction fuel with
  | zero => intro m o i m2 o2 h; simp [mapi_erase_loop] at h
  | succ fuel ih =>
    intro m o i m2 o2 h
    unfold mapi_erase_loop at h
    dsimp only at h
    repeat' split at h
    all_goals
      first
      | (simp only [Option.some.injEq, Prod.mk.injEq] at h; rw [← h.1])
      | (have h2 := ih _ _ _ _ _ h; exact h2)

theorem erase_object_size (m : mapi) (k : Nat) (m2 : mapi) (h : mapi_erase m k = some m2) :
    m2.object_size = m.object_size := by
  unfold mapi_erase at h
  split at h
  · simp at h
  · simp only [Option.some.injEq] at h; rw [← h]
  · split at h
    · simp only [Option.some.injEq] at h; rw [← h]
    · simp only at h
      split at h
      · simp at h
      · rename_i m3 o3 heq
        simp only [Option.some.injEq] at h
        rw [← h]
        have := mapi_erase_loop_object_size _ _ _ _ _ _ heq
        simp only at this
        rw [this]
        split <;> rfl

theorem clear_object_size (m : mapi) : (mapi_clear m).object_size = m.object_size := by
  have h : ∀ l : List Nat, ∀ m0 : mapi,
      (l.foldl (fun m o => { m with released := m.released ++ [mapi_get m o] }) m0).object_size
        = m0.object_size := by
    intro l
    induction l with
    | nil => intro m0; rfl
    | cons a l ih => intro m0; rw [List.foldl_cons, ih]
  unfold mapi_clear
  simp only
  split
  · exact h _ _
  · rfl

/-- `mapi_rehash` on a well-formed table returns, and leaves a well-formed table. -/
theorem rehash_fuel_wf (alloc : Nat → Bool) (fuel : Nat) (m : mapi) (n : Nat) (hWF : WF m)
    (hs : sizeof_mapi_object ≤ m.object_size) (hA : AllocFits m.object_size alloc) :
    ∃ m2 e, mapi_rehash_fuel alloc (fuel + 1) m n = some (m2, e) ∧ WF m2 ∧
      m2.empty_key = m.empty_key ∧ m2.object_size = m.object_size ∧ m2.size ≤ m.size ∧
      m.capacity ≤ m2.capacity ∧
      ((e = 0 ∧ (n ≤ 2 ^ 63 → n ≤ m2.capacity)) ∨ (e = -1 ∧ m2 = m)) := by
  rw [mapi_rehash_fuel_succ]
  have hge : n ≤ 2 ^ 63 → n ≤ mapi_roundup_size n := by
    intro h
    by_cases h0 : n = 0
    · omega
    · obtain ⟨j, e1, e2, _⟩ := roundup_spec n (by omega) h
      omega
  by_cases hg : mapi_roundup_size n > m.capacity
  · rw [if_pos hg]
    by_cases ha : alloc (rehash_capacity m n) = true
    · simp only [ha, Bool.not_true, Bool.false_eq_true, if_false,
        if_neg (buffer_fits_bytes _ _ (hA _ ha))]
      obtain ⟨hlen, hsh, h63, hsz, hload⟩ := hWF
      obtain ⟨⟨j, hj⟩, h8, hgt, hru, h64⟩ := rehash_capacity_shape m n hsh hg
      have hP0 := probing_rehash_target m _ j hj h64
      obtain ⟨nm2, hf, hP2, c2, e2, _, o2, s2⟩ :=
        fold_insert_wf (mapi_rehash_fuel alloc fuel) ((mapi_iter m).map (mapi_get m))
          (rehash_target m (rehash_capacity m n)) hP0
          (by simp only [List.length_map, length_iter, rehash_target]; omega)
          (by
            intro r hr
            exact ((mem_iter_records m r).mp hr).choose_spec.2.2)
      rw [hf]
      simp only [List.length_map, length_iter, rehash_target] at s2 c2 e2
      refine ⟨nm2, 0, rfl, ?_, e2, o2, by omega, by omega, Or.inl ⟨rfl, fun h => ?_⟩⟩
      · refine ⟨hP2.1, ?_, ?_, hP2.2.2.2, by omega⟩
        · rw [c2]; exact capacity_shape_mpr _ (by omega) (Or.inr ⟨h8, j, hj⟩)
        · rw [c2]; exact alloc_fits_bounded _ alloc hs hA _ ha
      · have := hge h; omega
    · simp only [ha, Bool.not_false, if_true]
      exact ⟨m, -1, rfl, hWF, rfl, rfl, Nat.le_refl _, Nat.le_refl _, Or.inr ⟨rfl, rfl⟩⟩
  · rw [if_neg hg]
    refine ⟨m, 0, rfl, hWF, rfl, rfl, Nat.le_refl _, Nat.le_refl _, Or.inl ⟨rfl, fun h => ?_⟩⟩
    have := hge h; omega

theorem reserve_with_wf (alloc : Nat → Bool) (fuel : Nat) (m : mapi) (s : Nat) (hWF : WF m)
    (hs : sizeof_mapi_object ≤ m.object_size) (hA : AllocFits m.object_size alloc) :
    ∃ m2 e, mapi_reserve_with (mapi_rehash_fuel alloc (fuel + 1)) m s = some (m2, e) ∧ WF m2 ∧
      m2.empty_key = m.empty_key ∧ m2.object_size = m.object_size ∧ m2.size ≤ m.size ∧
      m.capacity ≤ m2.capacity ∧
      ((e = 0 ∧ (2 * s ≤ 2 ^ 63 → 2 * s ≤ m2.capacity)) ∨ (e = -1 ∧ m2 = m)) := by
  unfold mapi_reserve_with
  simp only
  by_cases hg : (s <<< 1) % 2 ^ 64 > m.capacity
  · rw [if_pos hg]
    obtain ⟨m2, e, h1, h2, h3, ho, h4, h5, h6⟩ := rehash_fuel_wf alloc fuel m _ hWF hs hA
    refine ⟨m2, e, h1, h2, h3, ho, h4, h5, ?_⟩
    rcases h6 with ⟨he, hn⟩ | h6
    · refine Or.inl ⟨he, fun h => ?_⟩
      have e2 : (s <<< 1) % 2 ^ 64 = 2 * s := by
        rw [Nat.shiftLeft_eq, Nat.pow_one, Nat.mul_comm, Nat.mod_eq_of_lt (by omega)]
      rw [e2] at hn
      exact hn h
    · exact Or.inr h6
  · rw [if_neg hg]
    refine ⟨m, 0, rfl, hWF, rfl, rfl, Nat.le_refl _, Nat.le_refl _, Or.inl ⟨rfl, fun h => ?_⟩⟩
    have e2 : (s <<< 1) % 2 ^ 64 = 2 * s := by
      rw [Nat.shiftLeft_eq, Nat.pow_one, Nat.mul_comm, Nat.mod_eq_of_lt (by omega)]
    omega

/-- `mapi_insert` on a well-formed table returns, and leaves a well-formed table. -/
theorem insert_with_wf (alloc : Nat → Bool) (fuel : Nat) (m : mapi) (o : mapi_object)
    (hWF : WF m) (hs : sizeof_mapi_object ≤ m.object_size)
    (hA : AllocFits m.object_size alloc) (hk : o.key ≠ m.empty_key) :
    ∃ m2 r, mapi_insert_with (mapi_rehash_fuel alloc (fuel + 1)) m o = some (m2, r) ∧ WF m2 ∧
      m2.empty_key = m.empty_key ∧ m2.object_size = m.object_size := by
  have h63 := hWF.2.2.1
  have hload := hWF.2.2.2.2
  have hsz : (m.size + 1) % 2 ^ 64 = m.size + 1 := Nat.mod_eq_of_lt (by omega)
  obtain ⟨m1, e, h1, h2, h3, ho, h4, h5, h6⟩ :=
    reserve_with_wf alloc fuel m ((m.size + 1) % 2 ^ 64) hWF hs hA
  rcases h6 with ⟨he, hn⟩ | ⟨he, hm⟩
  · subst he
    rw [hsz] at hn
    have hroom : 2 * (m1.size + 1) ≤ m1.capacity := by have := hn (by omega); omega
    have hP := wf_probing m1 h2 (by omega)
    obtain ⟨p, hpc, hat, h⟩ := insert_after_reserve _ m m1 o h1 hP hroom
    rcases h with ⟨hp, hins, hP2⟩ | ⟨_, _, hins⟩
    · have hP3 := hP2 (by rw [h3]; exact hk)
      refine ⟨_, _, hins, ⟨hP3.1, h2.2.1, h2.2.2.1, hP3.2.2.2, ?_⟩, h3, ho⟩
      simp only; omega
    · refine ⟨_, _, hins, ?_, ?_, ?_⟩
      · split
        · exact wf_of_eq m1 _ h2 rfl rfl rfl rfl
        · exact h2
      · split
        · exact h3
        · exact h3
      · split
        · exact ho
        · exact ho
  · subst he
    exact ⟨m1, none, mapi_insert_with_of_fail _ m m1 o h1, h2, h3, ho⟩


theorem live_count_pos (m : mapi) (i : Nat) (hi : i < m.capacity)
    (hl : (mapi_get m i).key ≠ m.empty_key) : 0 < live_count m := by
  unfold live_count
  have hmem : i ∈ (List.range m.capacity).filter (fun i => !mapi_empty m i) := by
    simp only [List.mem_filter, List.mem_range, mapi_empty]
    exact ⟨hi, by simpa using hl⟩
  exact List.length_pos_of_mem hmem

theorem live_count_congr (m m2 : mapi) (hc : m2.capacity = m.capacity)
    (he : m2.empty_key = m.empty_key)
    (h : ∀ j, (mapi_get m2 j).key = m.empty_key ↔ (mapi_get m j).key = m.empty_key) :
    live_count m2 = live_count m := by
  unfold live_count
  rw [hc]
  congr 1
  apply List.filter_congr
  intro j _
  simp only [mapi_empty, he]
  by_cases hj : (mapi_get m j).key = m.empty_key
  · simp [hj, (h j).mpr hj]
  · have h3 : ¬ (mapi_get m2 j).key = m.empty_key := fun h2 => hj ((h j).mp h2)
    simp [hj, h3]

theorem next_slot (c i : Nat) (hi : i < c) : (if i + 1 = c then 0 else i + 1) = (i + 1) % c := by
  by_cases h : i + 1 = c
  · rw [if_pos h, h, Nat.mod_self]
  · rw [if_neg h, Nat.mod_eq_of_lt (by omega)]

/-- The repair loop of `mapi_erase` returns when an empty slot lies ahead; it keeps the
empty slots, and leaves in every slot but the final hole a record that was in a slot other
than the first hole. -/
theorem mapi_erase_loop_spec :
    ∀ fuel (m : mapi) (o i : Nat), m.objects.length = m.capacity → o < m.capacity →
      i < m.capacity → (mapi_get m o).key ≠ m.empty_key →
      (∃ d, 1 ≤ d ∧ d ≤ fuel ∧ (mapi_get m ((i + d) % m.capacity)).key = m.empty_key) →
      ∃ m2 o2, mapi_erase_loop fuel m o i = some (m2, o2) ∧
        m2.objects.length = m.objects.length ∧ m2.capacity = m.capacity ∧
        m2.empty_key = m.empty_key ∧ m2.size = m.size ∧ m2.release = m.release ∧
        m2.released = m.released ∧ m2.object_size = m.object_size ∧
        o2 < m.capacity ∧ (mapi_get m2 o2).key ≠ m.empty_key ∧
        (∀ j, (mapi_get m2 j).key = m.empty_key ↔ (mapi_get m j).key = m.empty_key) ∧
        (∀ P : mapi_object → Prop, (∀ j, j < m.capacity → j ≠ o → P (mapi_get m j)) →
          ∀ j, j < m.capacity → j ≠ o2 → P (mapi_get m2 j)) := by
  intro fuel
  induction fuel with
  | zero => intro m o i _ _ _ _ ⟨d, h1, h2, _⟩; omega
  | succ n ih =>
    intro m o i hlen ho hi hlo ⟨d, hd1, hd2, hde⟩
    simp only [mapi_erase_loop, mapi_inc, mapi_end, getKey, clone]
    rw [next_slot _ _ hi]
    have hi2 : (i + 1) % m.capacity < m.capacity := Nat.mod_lt _ (by omega)
    by_cases hemp : (mapi_get m ((i + 1) % m.capacity)).key = m.empty_key
    · rw [if_pos hemp]
      exact ⟨m, o, rfl, rfl, rfl, rfl, rfl, rfl, rfl, rfl, ho, hlo, fun _ => Iff.rfl,
        fun P hP => hP⟩
    · rw [if_neg hemp]
      have hd : 2 ≤ d := by
        by_contra hcon
        have : d = 1 := by omega
        rw [this] at hde
        exact hemp hde
      have hmod : ((i + 1) % m.capacity + (d - 1)) % m.capacity = (i + d) % m.capacity := by
        rw [Nat.mod_add_mod]
        congr 1; omega
      split
      · rename_i hmove
        have hne : (i + 1) % m.capacity ≠ o := by
          intro h; rw [h] at hmove; omega
        have hget : ∀ q, mapi_get
            { m with objects := m.objects.set o (mapi_get m ((i + 1) % m.capacity)) } q =
            if q = o then mapi_get m ((i + 1) % m.capacity) else mapi_get m q :=
          fun q => mapi_get_of_set m _ o q _ rfl (by omega)
        obtain ⟨m2, o2, h1, h2, h3, h4, h5, h6, h7, h8, h9, h10, h11, h12⟩ :=
          ih { m with objects := m.objects.set o (mapi_get m ((i + 1) % m.capacity)) }
            ((i + 1) % m.capacity) ((i + 1) % m.capacity) (by simpa using hlen) hi2 hi2
            (by rw [hget, if_neg hne]; exact hemp)
            ⟨d - 1, by omega, by omega, by
              simp only
              rw [hmod, hget]
              split
              · rename_i h; rw [h] at hde; exact absurd hde hlo
              · exact hde⟩
        refine ⟨m2, o2, h1, by simpa using h2, h3, h4, h5, h6, h7, h8, h9, h10, ?_, ?_⟩
        · intro j
          rw [h11 j]
          simp only [hget]
          split
          · rename_i h; rw [h]
            exact ⟨fun h2 => absurd h2 hemp, fun h2 => absurd h2 hlo⟩
          · exact Iff.rfl
        · intro P hP
          apply h12 P
          intro j hj hjne
          rw [hget]
          split
          · exact hP _ hi2 hne
          · rename_i hjo
            exact hP j hj hjo
      · exact ih m o ((i + 1) % m.capacity) hlen ho hi2 hlo
          ⟨d - 1, by omega, by omega, by rw [hmod]; exact hde⟩


theorem mapi_get_congr (m m2 : mapi) (h : m2.objects = m.objects) (j : Nat) :
    mapi_get m2 j = mapi_get m j := by
  unfold mapi_get; rw [h]

theorem wf_exists_empty (m : mapi) (hWF : WF m) (hc : 0 < m.capacity) :
    ∃ e, e < m.capacity ∧ (mapi_get m e).key = m.empty_key := by
  obtain ⟨_, hsh, _, hs, hl⟩ := hWF
  apply exists_empty_of_live_count_lt
  rcases capacity_shape_mp _ hsh with h | ⟨h8, _⟩
  · omega
  · unfold MAPI_MIN_CAPACITY at h8; omega

/-- The table `mapi_erase` works on when it enters its repair loop. -/
theorem mapi_erase_unfold (m : mapi) (k p : Nat) (hat : mapi_at m k = some (some p))
    (hl : (mapi_get m p).key ≠ m.empty_key) :
    mapi_erase m k =
      match mapi_erase_loop m.capacity
          { m with
            released := if m.release then m.released ++ [mapi_get m p] else m.released
            size := (m.size + 2 ^ 64 - 1) % 2 ^ 64 } p p with
      | none => none
      | some (m2, o) =>
        some { m2 with objects := m2.objects.set o { mapi_get m2 o with key := m2.empty_key } } := by
  unfold mapi_erase
  rw [hat]
  simp only
  rw [if_neg hl]
  obtain ⟨objs, os, ek, sz, cap, rel, rld⟩ := m
  cases rel <;> rfl


/-- `mapi_erase` of a key that is found: the call returns, the table stays well formed,
`size` drops by one, the record is released, and every slot is left empty or with a record
that was stored in another slot than the erased one. -/
theorem erase_found (m : mapi) (k p : Nat) (hWF : WF m)
    (hf : mapi_find m k = some (some p)) :
    ∃ m3, mapi_erase m k = some m3 ∧ WF m3 ∧ m3.empty_key = m.empty_key ∧
      m3.capacity = m.capacity ∧ m3.size + 1 = m.size ∧ m3.release = m.release ∧
      m3.released = (if m.release then m.released ++ [mapi_get m p] else m.released) ∧
      (∀ P : mapi_object → Prop, (∀ j, j < m.capacity → j ≠ p → P (mapi_get m j)) →
        ∀ j, j < m.capacity → (mapi_get m3 j).key = m.empty_key ∨ P (mapi_get m3 j)) := by
  obtain ⟨hat, hl⟩ := (mapi_find_eq_some m k p).mp hf
  obtain ⟨hpc, _⟩ := mapi_at_stop m k p hat
  obtain ⟨e, he, hek⟩ := wf_exists_empty m hWF (by omega)
  obtain ⟨hlen, hsh, h63, hs, hload⟩ := hWF
  have hpos := live_count_pos m p hpc hl
  rw [mapi_erase_unfold m k p hat hl]
  obtain ⟨d, hd, hde⟩ := mod_reach m.capacity p e he
  have hd0 : d ≠ 0 := by
    intro h0
    rw [h0, Nat.add_zero, Nat.mod_eq_of_lt hpc] at hde
    rw [hde] at hl; exact hl hek
  have hsz : (m.size + 2 ^ 64 - 1) % 2 ^ 64 = m.size - 1 := by
    have : m.size + 2 ^ 64 - 1 = (m.size - 1) + 2 ^ 64 := by omega
    rw [this, Nat.add_mod_right, Nat.mod_eq_of_lt (by omega)]
  rw [hsz]
  generalize hM : ({ m with
      released := if m.release then m.released ++ [mapi_get m p] else m.released
      size := m.size - 1 } : mapi) = M
  have hMo : M.objects = m.objects := by rw [← hM]
  have hMc : M.capacity = m.capacity := by rw [← hM]
  have hMe : M.empty_key = m.empty_key := by rw [← hM]
  have hMs : M.size = m.size - 1 := by rw [← hM]
  have hMr : M.release = m.release := by rw [← hM]
  have hMd : M.released = if m.release then m.released ++ [mapi_get m p] else m.released := by
    rw [← hM]
  have hMg : ∀ j, mapi_get M j = mapi_get m j := mapi_get_congr m M hMo
  obtain ⟨m2, o2, h1, h2, h3, h4, h5, h6, h7, h8, h9, h10, h11, h12⟩ :=
    mapi_erase_loop_spec m.capacity M p p (by rw [hMo, hMc]; exact hlen) (by rw [hMc]; exact hpc)
      (by rw [hMc]; exact hpc) (by rw [hMg, hMe]; exact hl)
      ⟨d, by omega, by omega, by rw [hMg, hMc, hMe, hde]; exact hek⟩
  rw [h1]
  rw [hMo] at h2
  rw [hMc] at h3 h9
  rw [hMe] at h4 h10 h11
  have hget : ∀ q, mapi_get
      { m2 with objects := m2.objects.set o2 { mapi_get m2 o2 with key := m2.empty_key } } q =
      if q = o2 then { mapi_get m2 o2 with key := m2.empty_key } else mapi_get m2 q :=
    fun q => mapi_get_of_set m2 _ o2 q _ rfl (by omega)
  have hlc2 : live_count m2 = live_count m := by
    apply live_count_congr m m2 h3 h4
    intro j
    rw [h11 j, hMg]
  have hlc3 : live_count
      { m2 with objects := m2.objects.set o2 { mapi_get m2 o2 with key := m2.empty_key } } =
      live_count m - 1 := by
    have := live_count_set m2 o2 { mapi_get m2 o2 with key := m2.empty_key } (by omega)
      (by omega) m2.size
    rw [this, h4, if_pos h10, if_neg (by simp), hlc2]
    rfl
  refine ⟨_, rfl, ⟨?_, ?_, ?_, ?_, ?_⟩, h4, h3, ?_, ?_, ?_, ?_⟩
  · simp only [List.length_set]; omega
  · simp only; rw [h3]; exact hsh
  · simp only; omega
  · rw [hlc3]
    simp only
    omega
  · simp only; omega
  · simp only; omega
  · simp only; rw [h6, hMr]
  · simp only; rw [h7, hMd]
  · intro P hP j hj
    rw [hget]
    by_cases hjo : j = o2
    · left; rw [if_pos hjo]; exact h4
    · right; rw [if_neg hjo]
      apply h12 P _ j (by omega) hjo
      intro i hi hip
      rw [hMg]
      exact hP i (by omega) hip

/-- `mapi_erase` of a key that is not found changes nothing. -/
theorem erase_absent (m : mapi) (k : Nat) (hf : mapi_find m k = some none) :
    mapi_erase m k = some m := by
  unfold mapi_find at hf
  unfold mapi_erase
  cases hat : mapi_at m k with
  | none => rw [hat] at hf; simp at hf
  | some o =>
    cases o with
    | none => rfl
    | some p =>
      rw [hat] at hf
      simp only [Option.map_some', mapi_empty] at hf
      by_cases hp : (mapi_get m p).key = m.empty_key
      · simp only; rw [if_pos hp]
      · simp [hp] at hf

/-- On a well-formed table `mapi_find` returns. -/
theorem find_total (m : mapi) (k : Nat) (hWF : WF m) :
    mapi_find m k = some none ∨ ∃ p, mapi_find m k = some (some p) := by
  by_cases hc : m.capacity = 0
  · left; unfold mapi_find mapi_at; simp [hc]
  · have hP := wf_probing m hWF (by omega)
    obtain ⟨_, ⟨j, hj⟩, _, _⟩ := hP
    obtain ⟨p, hp⟩ := mapi_at_total m k j hj (wf_exists_empty m hWF (by omega))
    by_cases hl : (mapi_get m p).key = m.empty_key
    · exact Or.inl (mapi_find_of_at_empty m k p hp hl)
    · exact Or.inr ⟨p, mapi_find_of_at_live m k p hp hl⟩

theorem erase_wf (m : mapi) (k : Nat) (hWF : WF m) :
    ∃ m2, mapi_erase m k = some m2 ∧ WF m2 ∧ m2.empty_key = m.empty_key := by
  rcases find_total m k hWF with h | ⟨p, h⟩
  · exact ⟨m, erase_absent m k h, hWF, rfl⟩
  · obtain ⟨m3, h1, h2, h3, _⟩ := erase_found m k p hWF h
    exact ⟨m3, h1, h2, h3⟩

theorem clear_wf (m : mapi) : WF (mapi_clear m) ∧ (mapi_clear m).empty_key = m.empty_key := by
  have h : ∀ l : List Nat, ∀ m0 : mapi,
      (l.foldl (fun m o => { m with released := m.released ++ [mapi_get m o] }) m0).empty_key
        = m0.empty_key := by
    intro l
    induction l with
    | nil => intro m0; rfl
    | cons a l ih => intro m0; rw [List.foldl_cons, ih]
  unfold mapi_clear
  refine ⟨⟨rfl, Or.inl rfl, by simp, rfl, by simp⟩, ?_⟩
  simp only
  split
  · exact h _ _
  · rfl


/-- Re-inserting records with pairwise distinct keys, none of them stored yet, places every
one of them and keeps every stored record findable. -/
theorem fold_insert_inv (R : mapi → Nat → Option (mapi × Int)) :
    ∀ (rs : List mapi_object) (nm : mapi), Probing nm → Findable nm →
      2 * (nm.size + rs.length) ≤ nm.capacity → (∀ r, r ∈ rs → r.key ≠ nm.empty_key) →
      rs.Pairwise (fun a b => a.key ≠ b.key) →
      (∀ r, r ∈ rs → ∀ r2, Stored nm r2 → r2.key ≠ r.key) →
      ∃ nm2, rs.foldlM (fun nm r => (mapi_insert_with R nm r).map Prod.fst) nm = some nm2 ∧
        Probing nm2 ∧ Findable nm2 ∧ nm2.capacity = nm.capacity ∧
        nm2.empty_key = nm.empty_key ∧ nm2.release = nm.release ∧
        nm2.object_size = nm.object_size ∧ nm2.released = nm.released ∧
        nm2.size = nm.size + rs.length ∧ ∀ r, Stored nm2 r ↔ Stored nm r ∨ r ∈ rs := by
  intro rs
  induction rs with
  | nil =>
    intro nm hP hF _ _ _ _
    exact ⟨nm, rfl, hP, hF, rfl, rfl, rfl, rfl, rfl, by simp, by simp⟩
  | cons r rs ih =>
    intro nm hP hF hroom hk hpw hns
    simp only [List.length_cons] at hroom
    have hres := mapi_reserve_with_nogrow R nm ((nm.size + 1) % 2 ^ 64)
      (by rw [Nat.mod_eq_of_lt (by have := hP.2.2.1; omega)]; omega) hP.2.2.1
    obtain ⟨p, hpc, hat, h⟩ := insert_after_reserve R nm nm r hres hP (by omega)
    have hkr := hk r (by simp)
    rcases h with ⟨hp, hins, hP2⟩ | ⟨hkey, hlive, _⟩
    · obtain ⟨hF2, _⟩ := findable_place nm
        { nm with objects := nm.objects.set p r, size := nm.size + 1 } r p rfl rfl rfl hP.1 hat hp
        hkr hF
      have hst := stored_place nm
        { nm with objects := nm.objects.set p r, size := nm.size + 1 } r p rfl rfl rfl hP.1 hpc hp
        hkr
      obtain ⟨nm2, hf, a, b, c, d, e, f, g, h, i⟩ := ih _ (hP2 hkr) hF2 (by simp only; omega)
        (fun x hx => hk x (by simp [hx])) (List.Pairwise.of_cons hpw)
        (by
          intro x hx r2 hr2
          rcases (hst r2).mp hr2 with h1 | h1
          · exact hns x (by simp [hx]) r2 h1
          · rw [h1]; exact List.rel_of_pairwise_cons hpw hx)
      refine ⟨nm2, ?_, a, b, c, d, e, f, g, ?_, ?_⟩
      · rw [List.foldlM_cons, hins]; simpa using hf
      · rw [h]; simp only [List.length_cons]; omega
      · intro x
        rw [i x, hst x]
        simp only [List.mem_cons]
        tauto
    · exact absurd hkey (hns r (by simp) _ ⟨p, hpc, rfl, hlive⟩)

theorem findable_rehash_target (m : mapi) (c : Nat) : Findable (rehash_target m c) := by
  intro i hi hl
  exfalso
  apply hl
  simp only [rehash_target, mapi_get, List.getD_eq_getElem?_getD] at hi ⊢
  rw [List.getElem?_replicate_of_lt hi]
  rfl

theorem not_stored_rehash_target (m : mapi) (c : Nat) (r : mapi_object) :
    ¬ Stored (rehash_target m c) r := by
  rintro ⟨i, hi, hr, hl⟩
  apply hl
  rw [← hr]
  simp only [rehash_target, mapi_get, List.getD_eq_getElem?_getD] at hi ⊢
  rw [List.getElem?_replicate_of_lt hi]
  rfl

/-- The live records, in slot order, have pairwise distinct keys when the stored keys are
pairwise distinct. -/
theorem iter_records_pairwise (m : mapi) (hD : DistinctKeys m) :
    ((mapi_iter m).map (mapi_get m)).Pairwise (fun a b => a.key ≠ b.key) := by
  rw [List.pairwise_map, mapi_iter_eq]
  have h := (List.pairwise_lt_range m.capacity).filter (fun i => !mapi_empty m i)
  have hmem : ∀ i, i ∈ (List.range m.capacity).filter (fun i => !mapi_empty m i) →
      i < m.capacity ∧ (mapi_get m i).key ≠ m.empty_key := by
    intro i hi
    simp only [List.mem_filter, List.mem_range, mapi_empty] at hi
    exact ⟨hi.1, by simpa using hi.2⟩
  refine (List.Pairwise.and_mem.mp h).imp ?_
  intro a b ⟨ha, hb, hab⟩ he
  have := hD a (hmem a ha).1 b (hmem b hb).1 (hmem a ha).2 he
  omega


theorem same_contents_refl (m : mapi) (hWF : WF m) (hF : Findable m) : SameContents m m := by
  obtain ⟨hlen, hsh, h63, hs, _⟩ := hWF
  exact ⟨hlen, hsh, by omega, hs, hF, rfl, rfl, rfl, rfl, rfl, Nat.le_refl _, fun _ => Iff.rfl⟩

theorem mapi_rehash_fuel_fail (alloc : Nat → Bool) (fuel : Nat) (m : mapi) (n : Nat)
    (h : mapi_roundup_size n > m.capacity) (ha : alloc (rehash_capacity m n) = false) :
    mapi_rehash_fuel alloc (fuel + 1) m n = some (m, -1) := by
  rw [mapi_rehash_fuel_succ, if_pos h]
  simp [ha]

/-- A growing `mapi_rehash` whose allocation succeeds, on a table whose stored records are
all findable: the new table holds the same records, all findable. -/
theorem mapi_rehash_fuel_grow (alloc : Nat → Bool) (fuel : Nat) (m : mapi) (n : Nat)
    (hWF : WF m) (hF : Findable m) (hg : mapi_roundup_size n > m.capacity)
    (ha : alloc (rehash_capacity m n) = true)
    (hb : BufferFits (rehash_capacity m n) m.object_size) :
    ∃ nm, mapi_rehash_fuel alloc (fuel + 1) m n = some (nm, 0) ∧ SameContents m nm ∧
      nm.capacity = rehash_capacity m n := by
  rw [mapi_rehash_fuel_succ, if_pos hg]
  simp only [ha, Bool.not_true, Bool.false_eq_true, if_false,
    if_neg (buffer_fits_bytes _ _ hb)]
  obtain ⟨hlen, hsh, h63, hs, hload⟩ := hWF
  obtain ⟨⟨j, hj⟩, h8, hgt, hru, h64⟩ := rehash_capacity_shape m n hsh hg
  have hP0 := probing_rehash_target m _ j hj h64
  obtain ⟨nm2, hf, hP2, hF2, c2, e2, r2, o2, d2, s2, st2⟩ :=
    fold_insert_inv (mapi_rehash_fuel alloc fuel) ((mapi_iter m).map (mapi_get m))
      (rehash_target m (rehash_capacity m n)) hP0 (findable_rehash_target _ _)
      (by simp only [List.length_map, length_iter, rehash_target]; omega)
      (by
        intro r hr
        exact ((mem_iter_records m r).mp hr).choose_spec.2.2)
      (iter_records_pairwise m (findable_distinct m hF))
      (by
        intro r _ r2 hr2
        exact absurd hr2 (not_stored_rehash_target _ _ _))
  rw [hf]
  simp only [List.length_map, length_iter, rehash_target] at s2 c2 e2 r2 o2 d2
  refine ⟨nm2, rfl, ⟨hP2.1, ?_, hP2.2.2.1, hP2.2.2.2, hF2, e2, r2, d2, o2, by omega, by omega,
    ?_⟩, c2⟩
  · rw [c2]; exact capacity_shape_mpr _ (by omega) (Or.inr ⟨h8, j, hj⟩)
  · intro r
    rw [st2 r, mem_iter_records]
    constructor
    · rintro (h | h)
      · exact absurd h (not_stored_rehash_target _ _ _)
      · exact h
    · exact Or.inr

/-- What a table with the same contents finds is what the first table finds. -/
theorem find_record_of_stored (m : mapi) (r : mapi_object) (hF : Findable m)
    (hS : Stored m r) : mapi_find_record m r.key = some (some r) := by
  obtain ⟨i, hi, hr, hl⟩ := hS
  have := hF i hi (by rw [hr]; exact hl)
  rw [hr] at this
  unfold mapi_find_record
  rw [this]
  simp [hr]

theorem find_record_of_not_stored (m : mapi) (k : Nat) (hsh : capacity_shape m.capacity)
    (hex : 0 < m.capacity → ∃ e, e < m.capacity ∧ (mapi_get m e).key = m.empty_key)
    (hns : ∀ r, Stored m r → r.key ≠ k) : mapi_find_record m k = some none := by
  have hc : ∃ j, m.capacity = 0 ∨ m.capacity = 2 ^ j := by
    rcases hsh with h | ⟨_, j, _, h⟩
    · exact ⟨0, Or.inl h⟩
    · exact ⟨j, Or.inr h⟩
  obtain ⟨j, hc⟩ := hc
  unfold mapi_find_record
  rw [mapi_find_of_not_stored m k j hc hex]
  · rfl
  · intro i hi hl
    exact hns _ ⟨i, hi, rfl, hl⟩

theorem find_record_congr (m m2 : mapi) (k : Nat) (hF : Findable m) (hF2 : Findable m2)
    (hsh : capacity_shape m.capacity) (hsh2 : capacity_shape m2.capacity)
    (hex : 0 < m.capacity → ∃ e, e < m.capacity ∧ (mapi_get m e).key = m.empty_key)
    (hex2 : 0 < m2.capacity → ∃ e, e < m2.capacity ∧ (mapi_get m2 e).key = m2.empty_key)
    (hst : ∀ r, r.key = k → (Stored m2 r ↔ Stored m r)) :
    mapi_find_record m2 k = mapi_find_record m k := by
  by_cases h : ∃ r, Stored m r ∧ r.key = k
  · obtain ⟨r, hr, hk⟩ := h
    rw [← hk, find_record_of_stored m r hF hr,
      find_record_of_stored m2 r hF2 ((hst r hk).mpr hr)]
  · rw [find_record_of_not_stored m k hsh hex (fun r hr hk => h ⟨r, hr, hk⟩),
      find_record_of_not_stored m2 k hsh2 hex2
        (fun r hr hk => h ⟨r, (hst r hk).mp hr, hk⟩)]

theorem same_contents_exists_empty (m m1 : mapi) (hWF : WF m) (hS : SameContents m m1)
    (hc : 0 < m1.capacity) : ∃ e, e < m1.capacity ∧ (mapi_get m1 e).key = m1.empty_key := by
  obtain ⟨_, hsh, _, hs, _, _, _, _, _, hsz, hcap, _⟩ := hS
  apply exists_empty_of_live_count_lt
  have hload := hWF.2.2.2.2
  rcases capacity_shape_mp _ hsh with h | ⟨h8, _⟩
  · omega
  · unfold MAPI_MIN_CAPACITY at h8; omega

theorem same_contents_find (m m1 : mapi) (k : Nat) (hWF : WF m) (hF : Findable m)
    (hS : SameContents m m1) : mapi_find_record m1 k = mapi_find_record m k :=
  find_record_congr m m1 k hF hS.2.2.2.2.1 hWF.2.1 hS.2.1 (wf_exists_empty m hWF)
    (same_contents_exists_empty m m1 hWF hS) (fun r _ => hS.2.2.2.2.2.2.2.2.2.2.2 r)


theorem mapi_reserve_with_congr (R R2 : mapi → Nat → Option (mapi × Int)) (m : mapi) (s : Nat)
    (h : ∀ c, R m c = R2 m c) : mapi_reserve_with R m s = mapi_reserve_with R2 m s := by
  unfold mapi_reserve_with
  simp only
  split
  · exact h _
  · rfl

theorem mapi_insert_with_congr (R R2 : mapi → Nat → Option (mapi × Int)) (m : mapi)
    (o : mapi_object) (h : ∀ c, R m c = R2 m c) :
    mapi_insert_with R m o = mapi_insert_with R2 m o := by
  unfold mapi_insert_with
  rw [mapi_reserve_with_congr R R2 m _ h]

theorem mapi_insert_eq (alloc : Nat → Bool) (m : mapi) (o : mapi_object) :
    mapi_insert alloc m o = mapi_insert_with (mapi_rehash_fuel alloc (m.capacity + 1)) m o :=
  mapi_insert_with_congr _ _ m o (fun _ => rfl)

theorem mapi_reserve_eq (alloc : Nat → Bool) (m : mapi) (s : Nat) :
    mapi_reserve alloc m s = mapi_reserve_with (mapi_rehash_fuel alloc (m.capacity + 1)) m s :=
  mapi_reserve_with_congr _ _ m s (fun _ => rfl)

theorem shl_one (s : Nat) (h : 2 * s < 2 ^ 64) : (s <<< 1) % 2 ^ 64 = 2 * s := by
  rw [Nat.shiftLeft_eq, Nat.pow_one, Nat.mul_comm, Nat.mod_eq_of_lt h]

/-- `mapi_reserve` on a table whose stored records are all findable: either the table has
room, or it is grown with the same contents, or the allocation fails and nothing changes. -/
theorem reserve_inv (alloc : Nat → Bool) (fuel : Nat) (m : mapi) (s : Nat) (hWF : WF m)
    (hF : Findable m) (hA : AllocFits m.object_size alloc) (hs : 2 * s ≤ 2 ^ 63) :
    (∃ m1, mapi_reserve_with (mapi_rehash_fuel alloc (fuel + 1)) m s = some (m1, 0) ∧
        SameContents m m1 ∧ 2 * s ≤ m1.capacity ∧
        ((m1 = m ∧ 2 * s ≤ m.capacity) ∨
          (m.capacity < 2 * s ∧ m1.capacity = rehash_capacity m (2 * s) ∧
            alloc (rehash_capacity m (2 * s)) = true))) ∨
      (mapi_reserve_with (mapi_rehash_fuel alloc (fuel + 1)) m s = some (m, -1) ∧
        m.capacity < 2 * s ∧ alloc (rehash_capacity m (2 * s)) = false) := by
  unfold mapi_reserve_with
  simp only
  rw [shl_one s (by omega)]
  by_cases hg : 2 * s > m.capacity
  · rw [if_pos hg]
    obtain ⟨j, e1, e2, _⟩ := roundup_spec (2 * s) (by omega) hs
    have hgr : mapi_roundup_size (2 * s) > m.capacity := by omega
    cases ha : alloc (rehash_capacity m (2 * s)) with
    | true =>
      left
      obtain ⟨nm, h1, h2, h3⟩ :=
        mapi_rehash_fuel_grow alloc fuel m (2 * s) hWF hF hgr ha (hA _ ha)
      obtain ⟨_, _, _, hru, _⟩ := rehash_capacity_shape m (2 * s) hWF.2.1 hgr
      exact ⟨nm, h1, h2, by omega, Or.inr ⟨by omega, h3, rfl⟩⟩
    | false =>
      right
      exact ⟨mapi_rehash_fuel_fail alloc fuel m (2 * s) hgr ha, by omega, rfl⟩
  · rw [if_neg hg]
    left
    exact ⟨m, rfl, same_contents_refl m hWF hF, by omega, Or.inl ⟨rfl, by omega⟩⟩

/-- The three outcomes of `mapi_insert` on a table whose stored records are all findable:
placed in the empty slot the probe ends on, rejected because the probe ends on the key, or
given up because the growth could not be allocated. -/
theorem insert_inv (alloc : Nat → Bool) (m : mapi) (o : mapi_object) (hWF : WF m)
    (hF : Findable m) (hA : AllocFits m.object_size alloc) :
    (∃ m1, SameContents m m1 ∧ 2 * (m.size + 1) ≤ m1.capacity ∧
        ((m1 = m ∧ 2 * (m.size + 1) ≤ m.capacity) ∨
          (m.capacity < 2 * (m.size + 1) ∧
            m1.capacity = rehash_capacity m (2 * (m.size + 1)) ∧
            alloc (rehash_capacity m (2 * (m.size + 1))) = true)) ∧
        ∃ p, p < m1.capacity ∧ mapi_at m1 o.key = some (some p) ∧
          (((mapi_get m1 p).key = m1.empty_key ∧
              mapi_insert alloc m o =
                some ({ m1 with objects := m1.objects.set p o, size := m1.size + 1 }, some p)) ∨
            ((mapi_get m1 p).key = o.key ∧ (mapi_get m1 p).key ≠ m1.empty_key ∧
              mapi_insert alloc m o =
                some (if m1.release then { m1 with released := m1.released ++ [o] } else m1,
                  none)))) ∨
      (mapi_insert alloc m o = some (m, none) ∧ m.capacity < 2 * (m.size + 1) ∧
        alloc (rehash_capacity m (2 * (m.size + 1))) = false) := by
  have h63 := hWF.2.2.1
  have hload := hWF.2.2.2.2
  have hsz : (m.size + 1) % 2 ^ 64 = m.size + 1 := Nat.mod_eq_of_lt (by omega)
  rw [mapi_insert_eq]
  rcases reserve_inv alloc m.capacity m (m.size + 1) hWF hF hA (by omega) with
    ⟨m1, h1, h2, h3, h4⟩ | ⟨h1, h2, h3⟩
  · left
    rw [← hsz] at h1
    have hP : Probing m1 := by
      obtain ⟨a, b, c, d, _⟩ := h2
      rcases capacity_shape_mp _ b with h | ⟨_, hj⟩
      · omega
      · exact ⟨a, hj, c, d⟩
    have hs1 : m1.size = m.size := h2.2.2.2.2.2.2.2.2.2.1
    obtain ⟨p, hpc, hat, h⟩ := insert_after_reserve _ m m1 o h1 hP (by omega)
    refine ⟨m1, h2, h3, h4, p, hpc, hat, ?_⟩
    rcases h with ⟨hp, hins, _⟩ | ⟨hk, hl, hins⟩
    · exact Or.inl ⟨hp, hins⟩
    · exact Or.inr ⟨hk, hl, hins⟩
  · right
    rw [← hsz] at h1
    exact ⟨mapi_insert_with_of_fail _ m m o h1, h2, h3⟩


theorem fresh_wf (s e : Nat) (release : Bool) :
    WF (fresh s e release) ∧ (fresh s e release).empty_key = e :=
  ⟨⟨rfl, Or.inl rfl, by simp [fresh, mapi_release, mapi_empty_key, mapi_init], rfl,
    by simp [fresh, mapi_release, mapi_empty_key, mapi_init]⟩, rfl⟩

/-- Every call of the public interface returns on a well-formed table and leaves a
well-formed table with the same sentinel. -/
theorem step_wf (m : mapi) (op : Op) (hWF : WF m) (hs : sizeof_mapi_object ≤ m.object_size)
    (hv : ValidOp m.object_size m.empty_key op) :
    ∃ m2, step m op = some m2 ∧ WF m2 ∧ m2.empty_key = m.empty_key ∧
      m2.object_size = m.object_size := by
  cases op with
  | insert alloc o =>
    obtain ⟨m2, r, h1, h2, h3, h4⟩ := insert_with_wf alloc m.capacity m o hWF hs hv.2 hv.1
    refine ⟨m2, ?_, h2, h3, h4⟩
    simp only [step, mapi_insert_eq, h1, Option.map_some']
  | erase k =>
    obtain ⟨m2, h1, h2, h3⟩ := erase_wf m k hWF
    exact ⟨m2, h1, h2, h3, erase_object_size m k m2 h1⟩
  | reserve alloc n =>
    obtain ⟨m2, e, h1, h2, h3, h4, _⟩ := reserve_with_wf alloc m.capacity m n hWF hs hv
    refine ⟨m2, ?_, h2, h3, h4⟩
    simp only [step, mapi_reserve_eq, h1, Option.map_some']
  | rehash alloc n =>
    obtain ⟨m2, e, h1, h2, h3, h4, _⟩ := rehash_fuel_wf alloc m.capacity m n hWF hs hv
    refine ⟨m2, ?_, h2, h3, h4⟩
    simp only [step, mapi_rehash, h1, Option.map_some']
  | clear =>
    exact ⟨_, rfl, (clear_wf m).1, (clear_wf m).2, clear_object_size m⟩

/-- Every sequence of calls returns and leaves a well-formed table. -/
theorem run_wf : ∀ (ops : List Op) (m : mapi), WF m → sizeof_mapi_object ≤ m.object_size →
    ValidOps m.object_size m.empty_key ops →
    ∃ m2, run m ops = some m2 ∧ WF m2 ∧ m2.empty_key = m.empty_key ∧
      m2.object_size = m.object_size := by
  intro ops
  induction ops with
  | nil => intro m hWF _ _; exact ⟨m, rfl, hWF, rfl, rfl⟩
  | cons op ops ih =>
    intro m hWF hs hv
    obtain ⟨m1, h1, h2, h3, ho⟩ := step_wf m op hWF hs (hv op (by simp))
    obtain ⟨m2, h4, h5, h6, h7⟩ := ih m1 h2 (by rw [ho]; exact hs) (by
      intro x hx; rw [h3, ho]; exact hv x (by simp [hx]))
    exact ⟨m2, by simp only [run, h1, Option.some_bind, h4], h5, by rw [h6, h3],
      by rw [h7, ho]⟩


/-- A record placed in the slot its probe ended on is found there. -/
theorem find_placed (m m2 : mapi) (o : mapi_object) (p : Nat)
    (hobj : m2.objects = m.objects.set p o) (hcap : m2.capacity = m.capacity)
    (hek : m2.empty_key = m.empty_key) (hlen : m.objects.length = m.capacity)
    (hat : mapi_at m o.key = some (some p)) (hk : o.key ≠ m.empty_key) :
    mapi_find m2 o.key = some (some p) ∧ mapi_get m2 p = o := by
  obtain ⟨hpos, hloop⟩ := mapi_at_eq_some m o.key p hat
  obtain ⟨hpc, _⟩ := mapi_at_stop m o.key p hat
  have hget : ∀ q, mapi_get m2 q = if q = p then o else mapi_get m q :=
    fun q => mapi_get_of_set m m2 p q o hobj (by omega)
  have hoth : ∀ q, q ≠ p → mapi_get m2 q = mapi_get m q := by
    intro q hq; rw [hget, if_neg hq]
  have hgp : mapi_get m2 p = o := by rw [hget, if_pos rfl]
  refine ⟨?_, hgp⟩
  apply mapi_find_of_at_live
  · rw [mapi_at_pos m2 _ (by omega), hcap]
    rw [mapi_at_loop_congr_target m m2 o.key p hcap hek hoth (Or.inr (by rw [hgp])) _ _ hloop]
    rfl
  · rw [hgp, hek]; exact hk

theorem find_record_of_find (m : mapi) (k p : Nat) (h : mapi_find m k = some (some p)) :
    mapi_find_record m k = some (some (mapi_get m p)) := by
  unfold mapi_find_record; rw [h]; rfl

theorem find_record_of_find_none (m : mapi) (k : Nat) (h : mapi_find m k = some none) :
    mapi_find_record m k = some none := by
  unfold mapi_find_record; rw [h]; rfl

/-- What `mapi_find` returns depends on the buffer, the capacity and the sentinel only. -/
theorem mapi_find_of_eq (m m2 : mapi) (k : Nat) (ho : m2.objects = m.objects)
    (hc : m2.capacity = m.capacity) (he : m2.empty_key = m.empty_key) :
    mapi_find m2 k = mapi_find m k ∧ mapi_find_record m2 k = mapi_find_record m k := by
  have hg : ∀ j, mapi_get m2 j = mapi_get m j := mapi_get_congr m m2 ho
  have hl : ∀ fuel s, mapi_at_loop m2 k fuel s = mapi_at_loop m k fuel s := by
    intro fuel
    induction fuel with
    | zero => intro s; rfl
    | succ n ih =>
      intro s
      simp only [mapi_at_loop, hc, he, hg, ih]
  have ha : mapi_at m2 k = mapi_at m k := by
    unfold mapi_at; simp only [hc, hl]
  have hf : mapi_find m2 k = mapi_find m k := by
    unfold mapi_find mapi_empty
    rw [ha]
    simp only [hg, he]
  refine ⟨hf, ?_⟩
  unfold mapi_find_record
  rw [hf]
  congr 1
  funext o
  cases o with
  | none => rfl
  | some p => simp [hg]

/-- The table after a record is placed in an empty slot of a table with room. -/
theorem placed_wf (m1 : mapi) (o : mapi_object) (p : Nat)
    (hlen : m1.objects.length = m1.capacity) (hsh : capacity_shape m1.capacity)
    (h63 : m1.capacity < 2 ^ 63) (hs : m1.size = live_count m1)
    (hroom : 2 * (m1.size + 1) ≤ m1.capacity) (hpc : p < m1.capacity)
    (hp : (mapi_get m1 p).key = m1.empty_key) (hk : o.key ≠ m1.empty_key) :
    WF { m1 with objects := m1.objects.set p o, size := m1.size + 1 } := by
  refine ⟨by simpa using hlen, hsh, h63, ?_, hroom⟩
  rw [live_count_set m1 p o hlen hpc, if_neg (by simpa using hp), if_pos hk]
  simp only
  omega

theorem placed_exists_empty (m1 : mapi) (o : mapi_object) (p : Nat)
    (hlen : m1.objects.length = m1.capacity) (hs : m1.size = live_count m1)
    (hroom : 2 * (m1.size + 1) ≤ m1.capacity) (hpc : p < m1.capacity) :
    ∃ e, e < m1.capacity ∧
      (mapi_get { m1 with objects := m1.objects.set p o, size := m1.size + 1 } e).key
        = m1.empty_key := by
  have h := exists_empty_of_live_count_lt
    { m1 with objects := m1.objects.set p o, size := m1.size + 1 } (by
      rw [live_count_set m1 p o hlen hpc]
      simp only
      split <;> split <;> omega)
  exact h

/-- The capacity asked for by the growth of an insert is at most twice the capacity, or the
minimum floor. -/
theorem rehash_capacity_le (m : mapi) (n : Nat) (hsh : capacity_shape m.capacity)
    (hn1 : 1 ≤ n) (hn : n ≤ m.capacity + 2) (h63 : m.capacity < 2 ^ 62) :
    rehash_capacity m n ≤ 2 * m.capacity ∨ rehash_capacity m n = MAPI_MIN_CAPACITY := by
  obtain ⟨j, e1, e2, e3⟩ := roundup_spec n hn1 (by omega)
  unfold rehash_capacity
  rcases capacity_shape_mp _ hsh with h | ⟨h8, i, hi⟩
  · rw [if_pos h]
    have h2 := e3 3 (by rw [h] at hn; omega)
    split
    · exact Or.inr rfl
    · rename_i hlt
      unfold MAPI_MIN_CAPACITY at hlt ⊢
      right; omega
  · unfold MAPI_MIN_CAPACITY at h8
    rw [if_neg (by omega)]
    left
    have h2 := e3 (i + 1) (by rw [Nat.pow_succ]; omega)
    rw [Nat.pow_succ] at h2
    omega


theorem not_stored_of_find_none (m : mapi) (k : Nat) (hF : Findable m)
    (hnf : mapi_find m k = some none) : ∀ r, Stored m r → r.key ≠ k := by
  rintro r ⟨i, hi, hr, hl⟩ hk
  have := hF i hi (by rw [hr]; exact hl)
  rw [hr, hk, hnf] at this
  simp at this

theorem stored_of_find (m : mapi) (k p : Nat) (h : mapi_find m k = some (some p)) :
    Stored m (mapi_get m p) ∧ (mapi_get m p).key = k := by
  obtain ⟨hi, hk, hne⟩ := mapi_find_key m k p h
  exact ⟨⟨p, hi, rfl, by rw [hk]; exact hne⟩, hk⟩

/-- `mapi_insert` of a key that is not stored, when the growth it may need can be
allocated: the record is placed, nothing is released, and every stored record stays
findable. -/
theorem insert_absent (alloc : Nat → Bool) (m : mapi) (o : mapi_object) (hWF : WF m)
    (hF : Findable m) (hA : AllocFits m.object_size alloc) (hk : o.key ≠ m.empty_key)
    (hnf : mapi_find m o.key = some none)
    (ha : m.capacity < 2 * (m.size + 1) →
      alloc (rehash_capacity m (2 * (m.size + 1))) = true) :
    ∃ m2 p, mapi_insert alloc m o = some (m2, some p) ∧ Findable m2 ∧
      (m2.capacity < 2 ^ 63 → WF m2) ∧ m2.empty_key = m.empty_key ∧
      m2.object_size = m.object_size ∧
      m2.release = m.release ∧ m2.released = m.released ∧ m2.size = m.size + 1 ∧
      m2.capacity = (if m.capacity < 2 * (m.size + 1) then
        rehash_capacity m (2 * (m.size + 1)) else m.capacity) ∧
      (∀ r, Stored m2 r ↔ Stored m r ∨ r = o) ∧ mapi_find m2 o.key = some (some p) ∧
      mapi_get m2 p = o := by
  rcases insert_inv alloc m o hWF hF hA with
    ⟨m1, hS, hroom, hgrow, p, hpc, hat, h⟩ | ⟨_, h2, h3⟩
  · obtain ⟨s1, s2, s3, s4, s5, s6, s7, s8, s9, s10, s11, s12⟩ := hS
    have hk1 : o.key ≠ m1.empty_key := by rw [s6]; exact hk
    rcases h with ⟨hp, hins⟩ | ⟨hkey, hlive, _⟩
    · obtain ⟨hF2, hfind⟩ := findable_place m1
        { m1 with objects := m1.objects.set p o, size := m1.size + 1 } o p rfl rfl rfl s1 hat hp
        hk1 s5
      have hst := stored_place m1
        { m1 with objects := m1.objects.set p o, size := m1.size + 1 } o p rfl rfl rfl s1 hpc hp
        hk1
      have hgp := (find_placed m1
        { m1 with objects := m1.objects.set p o, size := m1.size + 1 } o p rfl rfl rfl s1 hat
        hk1).2
      refine ⟨_, p, hins, hF2, ?_, s6, s9, s7, s8, ?_, ?_, ?_, hfind, hgp⟩
      · intro h63
        exact placed_wf m1 o p s1 s2 h63 s4 (by omega) hpc hp hk1
      · simp only; omega
      · simp only
        rcases hgrow with ⟨e, hle⟩ | ⟨hlt, e, _⟩
        · rw [if_neg (by omega), e]
        · rw [if_pos hlt, e]
      · intro r; rw [hst r, s12 r]
    · exfalso
      have hst : Stored m (mapi_get m1 p) := (s12 _).mp ⟨p, hpc, rfl, hlive⟩
      exact not_stored_of_find_none m o.key hF hnf _ hst hkey
  · rw [ha h2] at h3
    exact absurd h3 (by simp)

/-- `mapi_insert` of a key that is stored, when the growth it may need can be allocated: the
insert is rejected, the candidate is released when a callback is registered, and the table
keeps its contents. -/
theorem insert_present (alloc : Nat → Bool) (m : mapi) (o : mapi_object) (hWF : WF m)
    (hF : Findable m) (hA : AllocFits m.object_size alloc)
    (hst : ∃ r, Stored m r ∧ r.key = o.key)
    (ha : m.capacity < 2 * (m.size + 1) →
      alloc (rehash_capacity m (2 * (m.size + 1))) = true) :
    ∃ m2 m1, mapi_insert alloc m o = some (m2, none) ∧ SameContents m m1 ∧
      m2 = (if m1.release then { m1 with released := m1.released ++ [o] } else m1) ∧
      m1.capacity = (if m.capacity < 2 * (m.size + 1) then
        rehash_capacity m (2 * (m.size + 1)) else m.capacity) := by
  rcases insert_inv alloc m o hWF hF hA with
    ⟨m1, hS, hroom, hgrow, p, hpc, hat, h⟩ | ⟨_, h2, h3⟩
  · have hcap : m1.capacity = (if m.capacity < 2 * (m.size + 1) then
        rehash_capacity m (2 * (m.size + 1)) else m.capacity) := by
      rcases hgrow with ⟨e, hle⟩ | ⟨hlt, e, _⟩
      · rw [if_neg (by omega), e]
      · rw [if_pos hlt, e]
    rcases h with ⟨hp, _⟩ | ⟨_, _, hins⟩
    · exfalso
      obtain ⟨r, hr, hrk⟩ := hst
      have hr1 : Stored m1 r := (hS.2.2.2.2.2.2.2.2.2.2.2 r).mpr hr
      obtain ⟨i, hi, hri, hl⟩ := hr1
      have hfi := hS.2.2.2.2.1 i hi (by rw [hri]; exact hl)
      rw [hri, hrk] at hfi
      obtain ⟨hati, hli⟩ := (mapi_find_eq_some m1 o.key i).mp hfi
      rw [hat] at hati
      have : p = i := by simpa using hati
      rw [this] at hp
      exact hli hp
    · exact ⟨_, m1, hins, hS, rfl, hcap⟩
  · rw [ha h2] at h3
    exact absurd h3 (by simp)




/-- The release loop of `mapi_clear` hands the visited records to `release` in order and
changes nothing else. -/
theorem clear_fold (l : List Nat) :
    ∀ m : mapi,
      l.foldl (fun m o => { m with released := m.released ++ [mapi_get m o] }) m =
        { m with released := m.released ++ l.map (mapi_get m) } := by
  induction l with
  | nil => intro m; simp
  | cons a l ih =>
    intro m
    rw [List.foldl_cons, ih]
    have hg : mapi_get { m with released := m.released ++ [mapi_get m a] } = mapi_get m := rfl
    simp only [hg, List.map_cons, List.append_assoc, List.singleton_append]

theorem mapi_clear_eq (m : mapi) (hrel : m.release = true) :
    mapi_clear m =
      { m with
        released := m.released ++ (mapi_iter m).map (mapi_get m)
        objects := [], size := 0, capacity := 0 } := by
  unfold mapi_clear
  simp only
  rw [if_pos hrel, clear_fold]

theorem mapi_find_capacity_zero (m : mapi) (k : Nat) (h : m.capacity = 0) :
    mapi_find m k = some none := by
  unfold mapi_find mapi_at
  simp [h]

theorem max_eight (x : Nat) : max 8 x = if x < 8 then 8 else x := by
  rw [Nat.max_def]
  split <;> split <;> omega

/-- The capacity after one more insert, on the growth schedule
`max 8 (mapi_roundup_size (2 * size))`. -/
theorem schedule_step (m : mapi) (hn : 2 * (m.size + 1) ≤ 2 ^ 62)
    (hcap : m.capacity = if m.size = 0 then 0 else max 8 (mapi_roundup_size (2 * m.size))) :
    (if m.capacity < 2 * (m.size + 1) then rehash_capacity m (2 * (m.size + 1))
      else m.capacity) = max 8 (mapi_roundup_size (2 * (m.size + 1))) ∧
    max 8 (mapi_roundup_size (2 * (m.size + 1))) ≤ 2 ^ 62 := by
  obtain ⟨b, eb1, eb2, eb3⟩ := roundup_spec (2 * (m.size + 1)) (by omega) (by omega)
  have hb62 := eb3 62 hn
  have hb3 := eb3 3
  have h8 : (2 : Nat) ^ 3 = 8 := rfl
  rw [h8] at hb3
  unfold rehash_capacity MAPI_MIN_CAPACITY
  rw [max_eight, eb1]
  by_cases h0 : m.size = 0
  · rw [if_pos h0] at hcap
    generalize 2 ^ b = B at *
    rw [if_pos (by omega), if_pos hcap]
    constructor
    · rfl
    · split <;> omega
  · rw [if_neg h0, max_eight] at hcap
    obtain ⟨a, ea1, ea2, ea3⟩ := roundup_spec (2 * m.size) (by omega) (by omega)
    have hab := ea3 b (by omega)
    have hba := eb3 a
    rw [ea1] at hcap
    generalize 2 ^ a = A at *
    generalize 2 ^ b = B at *
    have hc0 : m.capacity ≠ 0 := by
      rw [hcap]; split <;> omega
    rw [if_neg hc0]
    have hc : (m.capacity = 8 ∧ A < 8) ∨ (m.capacity = A ∧ 8 ≤ A) := by
      rw [hcap]; split
      · left; exact ⟨rfl, by omega⟩
      · right; exact ⟨rfl, by omega⟩
    constructor
    · split <;> split <;> omega
    · split <;> omega


theorem alloc_fits_of_le (s c b : Nat) (hc : c ≤ b) (hb : BufferFits b s) :
    alloc_fits s c = true := by
  unfold alloc_fits
  simp only [decide_eq_true_eq]
  unfold BufferFits at hb ⊢
  have := Nat.mul_le_mul_right s hc
  omega

/-- For `1 <= n <= 2 ^ 63`, `mapi_roundup_size` of `n` is below `2 * n`. -/
theorem roundup_lt_double (n : Nat) (h1 : 1 ≤ n) (h2 : n ≤ 2 ^ 63) :
    mapi_roundup_size n < 2 * n := by
  obtain ⟨j, e1, e2, e3⟩ := roundup_spec n h1 h2
  rw [e1]
  cases j with
  | zero => simp only [Nat.pow_zero]; omega
  | succ i =>
    by_contra hge
    have hle : n ≤ 2 ^ i := by
      rw [Nat.pow_succ] at hge
      omega
    have := e3 i hle
    rw [Nat.pow_succ] at this
    have := Nat.two_pow_pos i
    omega

/-- Inserting records with pairwise distinct keys, none of them stored, into a table on the
growth schedule: every insert places its record and the table stays on the schedule. -/
theorem run_inserts :
    ∀ (rs : List mapi_object) (m : mapi), WF m → Findable m →
      m.capacity = (if m.size = 0 then 0 else max 8 (mapi_roundup_size (2 * m.size))) →
      (∀ r, r ∈ rs → r.key ≠ m.empty_key) → rs.Pairwise (fun a b => a.key ≠ b.key) →
      (∀ r, r ∈ rs → ∀ r2, Stored m r2 → r2.key ≠ r.key) →
      m.size + rs.length < 2 ^ 60 →
      BufferFits (4 * (m.size + rs.length) + 8) m.object_size →
      ∃ m2, run m (rs.map (Op.insert (alloc_fits m.object_size))) = some m2 ∧ WF m2 ∧
        Findable m2 ∧
        m2.size = m.size + rs.length ∧
        m2.capacity =
          (if m2.size = 0 then 0 else max 8 (mapi_roundup_size (2 * m2.size))) ∧
        ∀ r, Stored m2 r ↔ Stored m r ∨ r ∈ rs := by
  intro rs
  induction rs with
  | nil =>
    intro m hWF hF hcap _ _ _ _ _
    exact ⟨m, rfl, hWF, hF, rfl, hcap, by simp⟩
  | cons r rs ih =>
    intro m hWF hF hcap hk hpw hns hlen hfit
    simp only [List.length_cons] at hlen hfit
    have hnf : mapi_find m r.key = some none := by
      rcases find_total m r.key hWF with h | ⟨p, h⟩
      · exact h
      · obtain ⟨hs, hkey⟩ := stored_of_find m r.key p h
        exact absurd hkey (hns r (by simp) _ hs)
    obtain ⟨hstep, hle⟩ := schedule_step m (by omega) hcap
    have hrd := roundup_lt_double (2 * (m.size + 1)) (by omega) (by omega)
    obtain ⟨m1, p, hins, hF1, hWF1, e1, o1, _, _, s1, c1, st1, _, _⟩ :=
      insert_absent (alloc_fits m.object_size) m r hWF hF (alloc_fits_spec _) (hk r (by simp))
        hnf (by
        intro hlt
        rw [if_pos hlt] at hstep
        rw [hstep]
        refine alloc_fits_of_le _ _ _ ?_ hfit
        rw [max_eight]
        split <;> omega)
    rw [hstep] at c1
    have hW1 := hWF1 (by omega)
    obtain ⟨m2, h1, h2, h3, h4, h5, h6⟩ := ih m1 hW1 hF1
      (by rw [s1, if_neg (by omega)]; exact c1)
      (fun x hx => by rw [e1]; exact hk x (by simp [hx]))
      (List.Pairwise.of_cons hpw)
      (by
        intro x hx r2 hr2
        rcases (st1 r2).mp hr2 with h | h
        · exact hns x (by simp [hx]) r2 h
        · rw [h]; exact List.rel_of_pairwise_cons hpw hx)
      (by omega)
      (by
        rw [o1, s1]
        have e : 4 * (m.size + 1 + rs.length) + 8 = 4 * (m.size + (rs.length + 1)) + 8 := by
          omega
        rw [e]
        exact hfit)
    rw [o1] at h1
    refine ⟨m2, ?_, h2, h3, by rw [h4, s1, List.length_cons]; omega, h5, ?_⟩
    · simp only [List.map_cons, run, step, hins, Option.map_some', Option.some_bind]
      exact h1
    · intro x
      rw [h6 x, st1 x]
      simp only [List.mem_cons]
      tauto

/-- One round of the repair loop of `mapi_erase`, with its slot `w` and its move test
named. -/
theorem mapi_erase_loop_step (fuel : Nat) (m : mapi) (o i0 : Nat) :
    mapi_erase_loop (fuel + 1) m o i0 =
      if (mapi_get m (if i0 + 1 = m.capacity then 0 else i0 + 1)).key = m.empty_key then
        some (m, o)
      else if move_test o (if i0 + 1 = m.capacity then 0 else i0 + 1)
          (mapi_erase_w m (if i0 + 1 = m.capacity then 0 else i0 + 1)) then
        mapi_erase_loop fuel
          { m with
            objects :=
              m.objects.set o (mapi_get m (if i0 + 1 = m.capacity then 0 else i0 + 1)) }
          (if i0 + 1 = m.capacity then 0 else i0 + 1)
          (if i0 + 1 = m.capacity then 0 else i0 + 1)
      else mapi_erase_loop fuel m o (if i0 + 1 = m.capacity then 0 else i0 + 1) := rfl

/-- The first probe of `mapi_at`. -/
theorem mapi_at_loop_first (fuel : Nat) (m : mapi) (k : Nat) :
    mapi_at_loop m k (fuel + 1) (hash k) =
      if (mapi_get m (probe_start m k)).key = m.empty_key ∨
          getKey (mapi_get m (probe_start m k)) = k then some (probe_start m k)
      else mapi_at_loop m k fuel (probe_start m k + 1) := rfl

theorem mod_add_cases (c x : Nat) (hx : x < 2 * c) :
    x % c = if x < c then x else x - c := by
  split
  · rename_i h; exact Nat.mod_eq_of_lt h
  · rename_i h
    have e : x = (x - c) + c := by omega
    rw [e, Nat.add_mod_right, Nat.mod_eq_of_lt (by omega)]
    omega

theorem cyclic_dist_eq (c a b : Nat) (ha : a < c) (hb : b < c) :
    cyclic_dist c a b = if a ≤ b then b - a else b + c - a := by
  unfold cyclic_dist
  rw [mod_add_cases c (b + c - a) (by omega)]
  split <;> split <;> omega

/-- The move test holds exactly when `w` is not in the cyclic range from just after `o` to
`i` inclusive. -/
theorem move_test_iff (c o i w : Nat) (ho : o < c) (hi : i < c) (hw : w < c) (hio : i ≠ o) :
    move_test o i w ↔ ¬ in_cyclic_range c o i w := by
  unfold move_test in_cyclic_range
  rw [cyclic_dist_eq c o i ho hi]
  constructor
  · intro hm
    rintro ⟨d, hd, hd1, hd2, hwd⟩
    rw [mod_add_cases c (o + d) (by omega)] at hwd
    split at hd2 <;> split at hwd <;> omega
  · intro hn
    by_contra hm
    apply hn
    by_cases hlt : o < w
    · refine ⟨w - o, by omega, by omega, ?_, ?_⟩
      · split <;> omega
      · rw [mod_add_cases c _ (by omega)]
        split <;> omega
    · refine ⟨w + c - o, by omega, by omega, ?_, ?_⟩
      · split <;> omega
      · rw [mod_add_cases c _ (by omega)]
        split <;> omega

theorem succ_mod_add (c p d : Nat) : (p % c + 1 + d) % c = (p + (d + 1)) % c := by
  rw [Nat.add_assoc, Nat.mod_add_mod, Nat.add_comm 1 d]

/-- The probe loop returns the slot at the first distance `d` at which the slot is empty or
holds the key, as soon as it is given more than `d` probes. -/
theorem mapi_at_loop_exact (m : mapi) (k j : Nat) (hc : m.capacity = 2 ^ j) :
    ∀ fuel p d, d < fuel →
      ((mapi_get m ((p + d) % m.capacity)).key = m.empty_key ∨
        (mapi_get m ((p + d) % m.capacity)).key = k) →
      (∀ e, e < d → ¬ ((mapi_get m ((p + e) % m.capacity)).key = m.empty_key ∨
        (mapi_get m ((p + e) % m.capacity)).key = k)) →
      mapi_at_loop m k fuel p = some ((p + d) % m.capacity) := by
  intro fuel
  induction fuel with
  | zero => intro p d hd; omega
  | succ n ih =>
    intro p d hd hs hb
    simp only [mapi_at_loop, getKey]
    rw [hc, land_mask_pow, ← hc]
    cases d with
    | zero =>
      simp only [Nat.add_zero] at hs ⊢
      rw [if_pos hs]
    | succ d =>
      have h0 := hb 0 (by omega)
      rw [Nat.add_zero] at h0
      rw [if_neg h0]
      have := ih (p % m.capacity + 1) d (by omega)
        (by rw [succ_mod_add]; exact hs)
        (by
          intro e he
          rw [succ_mod_add]
          exact hb (e + 1) (by omega))
      rw [this, succ_mod_add]

/-- The probe loop does not return while the slots it has seen are neither empty nor hold
the key. -/
theorem mapi_at_loop_short (m : mapi) (k j : Nat) (hc : m.capacity = 2 ^ j) :
    ∀ fuel p,
      (∀ e, e < fuel → ¬ ((mapi_get m ((p + e) % m.capacity)).key = m.empty_key ∨
        (mapi_get m ((p + e) % m.capacity)).key = k)) →
      mapi_at_loop m k fuel p = none := by
  intro fuel
  induction fuel with
  | zero => intro p _; rfl
  | succ n ih =>
    intro p hb
    simp only [mapi_at_loop, getKey]
    rw [hc, land_mask_pow, ← hc]
    have h0 := hb 0 (by omega)
    rw [Nat.add_zero] at h0
    rw [if_neg h0]
    apply ih
    intro e he
    rw [succ_mod_add]
    exact hb (e + 1) (by omega)

/-- The repair loop of `mapi_erase` does not return while the slots it has scanned are not
empty. -/
theorem mapi_erase_loop_short :
    ∀ fuel (m : mapi) (o i : Nat), m.objects.length = m.capacity → o < m.capacity →
      i < m.capacity →
      (∀ e, 1 ≤ e → e ≤ fuel → (mapi_get m ((i + e) % m.capacity)).key ≠ m.empty_key) →
      mapi_erase_loop fuel m o i = none := by
  intro fuel
  induction fuel with
  | zero => intro m o i _ _ _ _; rfl
  | succ n ih =>
    intro m o i hlen ho hi hb
    simp only [mapi_erase_loop, mapi_inc, mapi_end, getKey, clone]
    rw [next_slot _ _ hi]
    have hi2 : (i + 1) % m.capacity < m.capacity := Nat.mod_lt _ (by omega)
    have h1 := hb 1 (by omega) (by omega)
    rw [if_neg h1]
    have hmod : ∀ e, ((i + 1) % m.capacity + e) % m.capacity = (i + (e + 1)) % m.capacity := by
      intro e
      rw [Nat.mod_add_mod]
      congr 1; omega
    split
    · have hget : ∀ q, mapi_get
          { m with objects := m.objects.set o (mapi_get m ((i + 1) % m.capacity)) } q =
          if q = o then mapi_get m ((i + 1) % m.capacity) else mapi_get m q :=
        fun q => mapi_get_of_set m _ o q _ rfl (by omega)
      refine ih { m with objects := m.objects.set o (mapi_get m ((i + 1) % m.capacity)) }
        _ _ (by simpa using hlen) hi2 hi2 ?_
      intro e he1 he2
      simp only
      rw [hget, hmod]
      split
      · exact h1
      · exact hb (e + 1) (by omega) (by omega)
    · apply ih m o _ hlen ho hi2
      intro e he1 he2
      rw [hmod]
      exact hb (e + 1) (by omega) (by omega)

/-- The first distance from `p`, walking forward with wraparound, at which a slot satisfies
a property that some slot satisfies. -/
theorem exists_first (c p : Nat) (P : Nat → Prop) (hex : ∃ e, e < c ∧ P e) :
    ∃ d, d < c ∧ P ((p + d) % c) ∧ ∀ e, e < d → ¬ P ((p + e) % c) := by
  classical
  obtain ⟨e, he, hP⟩ := hex
  obtain ⟨d0, hd0, hde⟩ := mod_reach c p e he
  have hx : ∃ d, P ((p + d) % c) := ⟨d0, by rw [hde]; exact hP⟩
  refine ⟨Nat.find hx, ?_, Nat.find_spec hx, fun e he => Nat.find_min hx he⟩
  exact Nat.lt_of_le_of_lt (Nat.find_le (by rw [hde]; exact hP)) hd0

/-- C1, evaluated at two failing inputs. The keys 2 and 29 both start their probes in slot 4
of 8, so 29 is stored in slot 5; after `mapi_erase` of 2 the record of 29 is still in slot 5
but slot 4 is empty, and `mapi_find` of 29 no longer returns it. The keys 20 and 0 both
start in slot 7, so 0 is stored in slot 0 (a chain that wraps); after `mapi_erase` of 20 the
key 0 is no longer found either. -/
theorem C1_erase_loses_live_key :
    (run (fresh 8 MAPI_EMPTY_KEY false)
        [Op.insert alloc_ok ⟨2, 100⟩, Op.insert alloc_ok ⟨29, 200⟩]).map
      (fun m => mapi_find_record m 29) = some (some (some ⟨29, 200⟩)) ∧
    (run (fresh 8 MAPI_EMPTY_KEY false)
        [Op.insert alloc_ok ⟨2, 100⟩, Op.insert alloc_ok ⟨29, 200⟩, Op.erase 2]).map
      (fun m => (mapi_find_record m 29, mapi_get m 5, mapi_size m)) =
        some (some none, ⟨29, 200⟩, 1) ∧
    (run (fresh 8 MAPI_EMPTY_KEY false)
        [Op.insert alloc_ok ⟨20, 100⟩, Op.insert alloc_ok ⟨0, 200⟩]).map
      (fun m => (mapi_find m 20, mapi_find m 0)) = some (some (some 7), some (some 0)) ∧
    (run (fresh 8 MAPI_EMPTY_KEY false)
        [Op.insert alloc_ok ⟨20, 100⟩, Op.insert alloc_ok ⟨0, 200⟩, Op.erase 20]).map
      (fun m => (mapi_find_record m 0, mapi_get m 0)) = some (some none, ⟨0, 200⟩) := by
  decide

/-- C2, evaluated at a failing input. After the erase of 2 has cut the record of key 29 off
its probe chain, `mapi_find` does not return 29; three more inserts bring `size` to 4, and
the insert of `(29, 999)` then grows the table, the rehash puts the old record of 29 back
on its chain, and the insert is rejected: it returns `NULL`, and `mapi_find` returns the old
record `(29, 200)`. -/
theorem C2_insert_of_unfindable_key_rejected :
    ∃ m, run (fresh 8 MAPI_EMPTY_KEY false)
        [Op.insert alloc_ok ⟨2, 100⟩, Op.insert alloc_ok ⟨29, 200⟩, Op.erase 2,
          Op.insert alloc_ok ⟨7, 1⟩, Op.insert alloc_ok ⟨9, 1⟩, Op.insert alloc_ok ⟨21, 1⟩]
        = some m ∧
      mapi_find m 29 = some none ∧
      (mapi_insert alloc_ok m ⟨29, 999⟩).map Prod.snd = some none ∧
      (mapi_insert alloc_ok m ⟨29, 999⟩).bind (fun r => mapi_find_record r.1 29) =
        some (some ⟨29, 200⟩) := by
  refine ⟨_, rfl, ?_, ?_, ?_⟩ <;> decide

/-- On a well-formed table whose stored records are all findable, with a release callback
registered and the allocator granting every request whose byte count fits, inserting
`(k, v1)` for a key that is not found succeeds, inserting `(k, v2)` afterwards returns
`NULL`, `mapi_find` then yields `(k, v1)`, `size` is the same as after the first call, and
the release trace has grown by exactly the second candidate. -/
theorem no_upsert_of_findable (m : mapi) (k v1 v2 : Nat) (hWF : WF m) (hF : Findable m)
    (hcap : m.capacity < 2 ^ 61) (hfit : BufferFits (4 * m.capacity + 16) m.object_size)
    (hrel : m.release = true) (hk : k ≠ m.empty_key) (hnf : mapi_find m k = some none) :
    ∃ m1 p m2, mapi_insert (alloc_fits m.object_size) m ⟨k, v1⟩ = some (m1, some p) ∧
      mapi_insert (alloc_fits m.object_size) m1 ⟨k, v2⟩ = some (m2, none) ∧
      mapi_find_record m2 k = some (some ⟨k, v1⟩) ∧ mapi_size m2 = mapi_size m1 ∧
      m1.released = m.released ∧ m2.released = m.released ++ [⟨k, v2⟩] := by
  have hload := hWF.2.2.2.2
  have hsh := hWF.2.1
  have hA : ∀ mm : mapi, capacity_shape mm.capacity →
      (mm.capacity ≤ 2 * m.capacity ∨ mm.capacity ≤ 8) →
      2 * mm.size ≤ mm.capacity → mm.capacity < 2 * (mm.size + 1) →
      alloc_fits m.object_size (rehash_capacity mm (2 * (mm.size + 1))) = true := by
    intro mm h1 h2 h3 _
    have := rehash_capacity_le mm (2 * (mm.size + 1)) h1 (by omega) (by omega) (by omega)
    unfold MAPI_MIN_CAPACITY at this
    exact alloc_fits_of_le _ _ _ (by omega) hfit
  obtain ⟨m1, p, hins1, hF1, hWF1, e1, o1, r1, d1, s1, c1, st1, f1, g1⟩ :=
    insert_absent (alloc_fits m.object_size) m ⟨k, v1⟩ hWF hF (alloc_fits_spec _) hk hnf
      (hA m hsh (by omega) hload)
  have hc1 : m1.capacity ≤ 2 * m.capacity ∨ m1.capacity ≤ 8 := by
    rw [c1]
    split
    · have := rehash_capacity_le m (2 * (m.size + 1)) hsh (by omega) (by omega) (by omega)
      unfold MAPI_MIN_CAPACITY at this
      omega
    · omega
  have hW1 := hWF1 (by omega)
  obtain ⟨m2, mB, hins2, hS, hm2, _⟩ := insert_present (alloc_fits m.object_size) m1 ⟨k, v2⟩
    hW1 hF1 (by rw [o1]; exact alloc_fits_spec _)
    ⟨⟨k, v1⟩, (st1 _).mpr (Or.inr rfl), rfl⟩ (hA m1 hW1.2.1 hc1 hW1.2.2.2.2)
  obtain ⟨_, _, _, _, _, _, b7, b8, _, b10, _, _⟩ := id hS
  have hrB : mB.release = true := by rw [b7, r1, hrel]
  rw [if_pos hrB] at hm2
  refine ⟨m1, p, m2, hins1, hins2, ?_, ?_, d1, ?_⟩
  · rw [hm2, (mapi_find_of_eq mB { mB with released := mB.released ++ [⟨k, v2⟩] } k rfl rfl rfl).2, same_contents_find m1 mB k hW1 hF1 hS,
      find_record_of_find m1 k p f1, g1]
  · rw [hm2]; exact b10
  · rw [hm2]
    show mB.released ++ [_] = _
    rw [b8, d1]

/-- On a well-formed table whose stored records are each returned by `mapi_find` (so that
no key is stored twice), a `mapi_insert` of a record with a key other than the sentinel
returns, and for every other key `mapi_find` yields a record with the same contents, or not
found, as before the insert; whether the record is placed or rejected, with or without a
growth by a full rehash. -/
theorem insert_preserves_others_of_findable (alloc : Nat → Bool) (m : mapi)
    (o : mapi_object) (k2 : Nat) (hWF : WF m) (hF : Findable m)
    (hA : AllocFits m.object_size alloc) (hk : o.key ≠ m.empty_key) (hne : k2 ≠ o.key) :
    ∃ m2 r, mapi_insert alloc m o = some (m2, r) ∧
      mapi_find_record m2 k2 = mapi_find_record m k2 ∧ mapi_find_record m k2 ≠ none := by
  have htot : mapi_find_record m k2 ≠ none := by
    rcases find_total m k2 hWF with h | ⟨p, h⟩
    · rw [find_record_of_find_none m k2 h]; simp
    · rw [find_record_of_find m k2 p h]; simp
  rcases insert_inv alloc m o hWF hF hA with
    ⟨m1, hS, hroom, _, p, hpc, hat, h⟩ | ⟨hfail, _, _⟩
  · have hsame := same_contents_find m m1 k2 hWF hF hS
    have hex1 := same_contents_exists_empty m m1 hWF hS
    obtain ⟨s1, s2, s3, s4, s5, s6, s7, s8, s9, s10, s11, s12⟩ := hS
    have hk1 : o.key ≠ m1.empty_key := by rw [s6]; exact hk
    rcases h with ⟨hp, hins⟩ | ⟨_, _, hins⟩
    · obtain ⟨hF2, _⟩ := findable_place m1
        { m1 with objects := m1.objects.set p o, size := m1.size + 1 } o p rfl rfl rfl s1 hat hp
        hk1 s5
      have hst := stored_place m1
        { m1 with objects := m1.objects.set p o, size := m1.size + 1 } o p rfl rfl rfl s1 hpc hp
        hk1
      refine ⟨_, _, hins, ?_, htot⟩
      rw [← hsame]
      apply find_record_congr m1 _ k2 s5 hF2 s2 s2 hex1
      · intro _
        exact placed_exists_empty m1 o p s1 s4 (by omega) hpc
      · intro r hr
        rw [hst r]
        constructor
        · rintro (h | h)
          · exact h
          · rw [h] at hr; exact absurd hr.symm hne
        · exact Or.inl
    · refine ⟨_, _, hins, ?_, htot⟩
      rw [← hsame]
      split
      · exact (mapi_find_of_eq m1 { m1 with released := m1.released ++ [o] } k2 rfl rfl rfl).2
      · rfl
  · exact ⟨m, none, hfail, rfl, htot⟩

/-- C4, evaluated at a failing input. After the erase of 20 has cut the record `(0, 200)`
off its probe chain, the insert of `(0, 201)` stores the key 0 a second time; in the table
of capacity 8 and size 4 that two more inserts leave, every stored key is found, and
`mapi_find` of 0 yields `(0, 201)`. The insert of the other key 21 succeeds and grows the
table to 16; the rehash meets `(0, 200)` first and rejects `(0, 201)`, on which it calls
`release`, and `mapi_find` of 0 then yields `(0, 200)`. -/
theorem C4_insert_changes_other_key :
    ∃ m, run (fresh 8 MAPI_EMPTY_KEY true) doubled_ops = some m ∧
      WF m ∧ KeysFound m ∧ mapi_bucket_count m = 8 ∧
      mapi_find_record m 0 = some (some ⟨0, 201⟩) ∧ m.released = [⟨20, 100⟩] ∧
      (mapi_insert (alloc_fits 8) m ⟨21, 1⟩).map
          (fun r => (r.2, mapi_bucket_count r.1, mapi_find_record r.1 0, r.1.released)) =
        some (some 10, 16, some (some ⟨0, 200⟩), [⟨20, 100⟩, ⟨0, 201⟩]) := by
  refine ⟨_, rfl, ?_, ?_, ?_, ?_, ?_, ?_⟩ <;> decide

/-- C5: after every sequence of inserts (of keys other than the sentinel), erases, reserves,
rehashes and clears on a freshly initialised table whose slots are large enough for a record
header, with an allocator that returns a buffer only for a request whose byte count did not
wrap, every call returns and `mapi_size` is the number of slots, among the `capacity` slots,
whose key differs from the sentinel. -/
theorem C5_size_counts_live_slots (s e : Nat) (release : Bool) (ops : List Op)
    (hs : sizeof_mapi_object ≤ s) (hv : ValidOps s e ops) :
    ∃ m, run (fresh s e release) ops = some m ∧ mapi_size m = live_count m := by
  obtain ⟨m, h1, h2, _⟩ := run_wf ops (fresh s e release) (fresh_wf s e release).1 hs hv
  exact ⟨m, h1, h2.2.2.2.1⟩

/-- C6 as stated fails: four inserts into a freshly initialised table leave capacity 8 and
size 4, and 8 is not greater than twice 4. -/
theorem C6_counterexample :
    ∃ m, run (fresh 8 MAPI_EMPTY_KEY false)
        [Op.insert alloc_ok ⟨1, 0⟩, Op.insert alloc_ok ⟨2, 0⟩, Op.insert alloc_ok ⟨3, 0⟩,
          Op.insert alloc_ok ⟨4, 0⟩] = some m ∧
      0 < mapi_bucket_count m ∧ ¬ (mapi_bucket_count m > 2 * mapi_size m) := by
  refine ⟨_, rfl, ?_, ?_⟩ <;> decide

/-- C6, amended: after every sequence of calls on a freshly initialised table whose slots
are large enough for a record header, with an allocator that returns a buffer only for a
request whose byte count did not wrap, every call returns and, whenever the capacity is
positive, the capacity is at least twice the size. -/
theorem C6_load_factor (s e : Nat) (release : Bool) (ops : List Op)
    (hs : sizeof_mapi_object ≤ s) (hv : ValidOps s e ops) :
    ∃ m, run (fresh s e release) ops = some m ∧
      (0 < mapi_bucket_count m → mapi_bucket_count m ≥ 2 * mapi_size m) := by
  obtain ⟨m, h1, h2, _⟩ := run_wf ops (fresh s e release) (fresh_wf s e release).1 hs hv
  exact ⟨m, h1, fun _ => h2.2.2.2.2⟩

/-- C7: after every sequence of calls on a freshly initialised table whose slots are large
enough for a record header, with an allocator that returns a buffer only for a request whose
byte count did not wrap, every call returns and the capacity is 0 or a power of two that is
at least `MAPI_MIN_CAPACITY`, which is 8. -/
theorem C7_capacity_shape (s e : Nat) (release : Bool) (ops : List Op)
    (hs : sizeof_mapi_object ≤ s) (hv : ValidOps s e ops) :
    ∃ m, run (fresh s e release) ops = some m ∧
      (mapi_bucket_count m = 0 ∨
        (MAPI_MIN_CAPACITY ≤ mapi_bucket_count m ∧ ∃ j, mapi_bucket_count m = 2 ^ j)) ∧
      MAPI_MIN_CAPACITY = 8 := by
  obtain ⟨m, h1, h2, _⟩ := run_wf ops (fresh s e release) (fresh_wf s e release).1 hs hv
  exact ⟨m, h1, capacity_shape_mp _ h2.2.1, rfl⟩


/-- C8: when a growth is needed and its allocation fails, `mapi_rehash` and `mapi_reserve`
return -1 and `mapi_insert` returns `NULL`, and the table they leave is the table they were
given, with every field unchanged. -/
theorem C8_growth_atomicity (alloc : Nat → Bool) (m : mapi) (n : Nat) (o : mapi_object) :
    (mapi_roundup_size n > m.capacity → alloc (rehash_capacity m n) = false →
      mapi_rehash alloc m n = some (m, -1)) ∧
    ((n <<< 1) % 2 ^ 64 > m.capacity →
      mapi_roundup_size ((n <<< 1) % 2 ^ 64) > m.capacity →
      alloc (rehash_capacity m ((n <<< 1) % 2 ^ 64)) = false →
      mapi_reserve alloc m n = some (m, -1)) ∧
    ((((m.size + 1) % 2 ^ 64) <<< 1) % 2 ^ 64 > m.capacity →
      mapi_roundup_size ((((m.size + 1) % 2 ^ 64) <<< 1) % 2 ^ 64) > m.capacity →
      alloc (rehash_capacity m ((((m.size + 1) % 2 ^ 64) <<< 1) % 2 ^ 64)) = false →
      mapi_insert alloc m o = some (m, none)) := by
  have hres : ∀ s, (s <<< 1) % 2 ^ 64 > m.capacity →
      mapi_roundup_size ((s <<< 1) % 2 ^ 64) > m.capacity →
      alloc (rehash_capacity m ((s <<< 1) % 2 ^ 64)) = false →
      mapi_reserve_with (mapi_rehash_fuel alloc (m.capacity + 1)) m s = some (m, -1) := by
    intro s h1 h2 h3
    unfold mapi_reserve_with
    simp only
    rw [if_pos h1]
    exact mapi_rehash_fuel_fail alloc m.capacity m _ h2 h3
  refine ⟨?_, ?_, ?_⟩
  · intro h1 h2
    exact mapi_rehash_fuel_fail alloc m.capacity m n h1 h2
  · intro h1 h2 h3
    rw [mapi_reserve_eq]
    exact hres n h1 h2 h3
  · intro h1 h2 h3
    rw [mapi_insert_eq]
    exact mapi_insert_with_of_fail _ m m o (hres _ h1 h2 h3)

/-- C8 at a table of capacity 8 and size 4 with an allocator that fails. -/
theorem C8_growth_atomicity_witness :
    mapi_rehash alloc_fail table8 100 = some (table8, -1) ∧
      mapi_reserve alloc_fail table8 100 = some (table8, -1) ∧
      mapi_insert alloc_fail table8 ⟨5, 50⟩ = some (table8, none) :=
  ⟨(C8_growth_atomicity alloc_fail table8 100 ⟨5, 50⟩).1 (by decide) rfl,
    (C8_growth_atomicity alloc_fail table8 100 ⟨5, 50⟩).2.1 (by decide) (by decide) rfl,
    (C8_growth_atomicity alloc_fail table8 100 ⟨5, 50⟩).2.2 (by decide) (by decide) rfl⟩

/-- C9: on a table whose `size` counts its live slots, the traversal `mapi_begin`,
`mapi_next`, ... up to `mapi_end` visits exactly the slots below `capacity` whose key differs
from the sentinel, in strictly ascending order and so each once; their number is
`mapi_size`; and on capacity 0 `mapi_begin` is `mapi_end`. -/
theorem C9_iteration_complete (m : mapi) (hsize : m.size = live_count m) :
    (∀ i, i ∈ mapi_iter m ↔ i < mapi_bucket_count m ∧ (mapi_get m i).key ≠ m.empty_key) ∧
      (mapi_iter m).Pairwise (fun a b => a < b) ∧ (mapi_iter m).Nodup ∧
      (mapi_iter m).length = mapi_size m ∧
      (mapi_bucket_count m = 0 → mapi_begin m = mapi_end m) := by
  have hp : (mapi_iter m).Pairwise (fun a b => a < b) := by
    rw [mapi_iter_eq]
    exact (List.pairwise_lt_range m.capacity).filter _
  refine ⟨?_, hp, ?_, ?_, ?_⟩
  · intro i
    rw [mapi_iter_eq]
    simp only [List.mem_filter, List.mem_range, mapi_empty, mapi_bucket_count]
    constructor
    · rintro ⟨h1, h2⟩; exact ⟨h1, by simpa using h2⟩
    · rintro ⟨h1, h2⟩; exact ⟨h1, by simpa using h2⟩
  · exact hp.imp (fun h => Nat.ne_of_lt h)
  · rw [length_iter, mapi_size, hsize]
  · intro h
    unfold mapi_bucket_count at h
    unfold mapi_begin mapi_skip mapi_end
    rw [h]
    rfl

/-- C9 at a table with four live slots. -/
theorem C9_iteration_complete_witness :
    table8.size = live_count table8 ∧ mapi_iter table8 = [0, 1, 2, 3] ∧
      (mapi_iter table8).length = mapi_size table8 :=
  ⟨by decide, by decide, (C9_iteration_complete table8 (by decide)).2.2.2.1⟩

/-- C10: on a well-formed table with pairwise distinct stored keys in which `k` is found,
`mapi_erase` of `k` returns, after it `k` is not found and `size` is one less; the following
`mapi_insert` of `(k, v)` is not rejected and returns the slot, after it `mapi_find` yields
`(k, v)` and `size` is what it was before the erase. -/
theorem C10_erase_then_reinsert (alloc : Nat → Bool) (m : mapi) (k v : Nat) (hWF : WF m)
    (hD : DistinctKeys m) (hf : ∃ p, mapi_find m k = some (some p)) :
    ∃ m1, mapi_erase m k = some m1 ∧ mapi_find m1 k = some none ∧
      mapi_size m1 + 1 = mapi_size m ∧
      ∃ m2 q, mapi_insert alloc m1 ⟨k, v⟩ = some (m2, some q) ∧
        mapi_find_record m2 k = some (some ⟨k, v⟩) ∧ mapi_size m2 = mapi_size m := by
  obtain ⟨p, hf⟩ := hf
  obtain ⟨hpc, hkp, hke⟩ := mapi_find_key m k p hf
  obtain ⟨m1, h1, hW1, e1, c1, s1, _, _, hP⟩ := erase_found m k p hWF hf
  have hno : ∀ j, j < m1.capacity → (mapi_get m1 j).key ≠ m1.empty_key →
      (mapi_get m1 j).key ≠ k := by
    intro j hj hl
    rcases hP (fun r => r.key ≠ k) (by
      intro i hi hip hik
      have := hD p hpc i hi (by rw [hkp]; exact hke) (by rw [hkp, hik])
      exact hip this.symm) j (by rw [← c1]; exact hj) with h | h
    · rw [e1] at hl; exact absurd h hl
    · exact h
  have hpos : 0 < m1.capacity := by omega
  have hP1 := wf_probing m1 hW1 hpos
  obtain ⟨hlen1, ⟨j, hj⟩, h64, hs1⟩ := id hP1
  have hfn : mapi_find m1 k = some none :=
    mapi_find_of_not_stored m1 k j (Or.inr hj) (fun _ => wf_exists_empty m1 hW1 hpos) hno
  refine ⟨m1, h1, hfn, s1, ?_⟩
  have hload := hWF.2.2.2.2
  have hroom : 2 * (m1.size + 1) ≤ m1.capacity := by rw [c1]; omega
  have hres := mapi_reserve_with_nogrow (mapi_rehash_fuel alloc (m1.capacity + 1)) m1
    ((m1.size + 1) % 2 ^ 64) (by rw [Nat.mod_eq_of_lt (by omega)]; exact hroom) h64
  obtain ⟨q, hqc, hat, h⟩ := insert_after_reserve _ m1 m1 ⟨k, v⟩ hres hP1 hroom
  rcases h with ⟨hq, hins, _⟩ | ⟨hkey, hlive, _⟩
  · obtain ⟨hfind, hget⟩ := find_placed m1
      { m1 with objects := m1.objects.set q ⟨k, v⟩, size := m1.size + 1 } ⟨k, v⟩ q rfl rfl rfl
      hlen1 hat (by rw [e1]; exact hke)
    refine ⟨_, q, by rw [mapi_insert_eq]; exact hins, ?_, ?_⟩
    · rw [find_record_of_find _ k q hfind, hget]
    · exact s1
  · exact absurd hkey (hno q hqc hlive)

/-- C10 at a table in which the erased key 9 heads a probe chain: 12 is shifted back. -/
theorem C10_erase_then_reinsert_witness :
    WF table8 ∧ DistinctKeys table8 ∧ mapi_find table8 9 = some (some 1) ∧
      ∃ m1, mapi_erase table8 9 = some m1 ∧ mapi_find m1 9 = some none ∧
        mapi_size m1 + 1 = mapi_size table8 ∧
        ∃ m2 q, mapi_insert alloc_ok m1 ⟨9, 91⟩ = some (m2, some q) ∧
          mapi_find_record m2 9 = some (some ⟨9, 91⟩) ∧ mapi_size m2 = mapi_size table8 :=
  ⟨by decide, by decide, by decide,
    C10_erase_then_reinsert alloc_ok table8 9 91 (by decide) (by decide) ⟨1, by decide⟩⟩


/-- The insert of a fifth key into `table8` grows it from capacity 8 to capacity 16. -/
theorem table8_insert_grows :
    (mapi_insert alloc_ok table8 ⟨5, 50⟩).map (fun r => (r.1.capacity, r.1.size, r.2)) =
      some (16, 5, some 14) := by
  decide

theorem alloc_fail_fits (s : Nat) : AllocFits s alloc_fail := by
  intro c hc
  simp [alloc_fail] at hc

theorem sample_ops_valid : ValidOps 8 4294967295 sample_ops := by
  intro op hop
  simp only [sample_ops, List.mem_cons, List.mem_singleton, List.not_mem_nil, or_false] at hop
  rcases hop with h | h | h | h | h | h | h | h | h <;> subst h
  all_goals
    first
    | exact ⟨by decide, alloc_fits_spec 8⟩
    | exact alloc_fits_spec 8
    | exact alloc_fail_fits 8
    | exact True.intro

/-- C5 at a sequence of calls with growth, erase, reserve and rehash. -/
theorem C5_size_counts_live_slots_witness :
    sizeof_mapi_object ≤ 8 ∧ ValidOps 8 4294967295 sample_ops ∧
      ∃ m, run (fresh 8 4294967295 true) sample_ops = some m ∧ mapi_size m = live_count m :=
  ⟨by decide, sample_ops_valid,
    C5_size_counts_live_slots 8 4294967295 true sample_ops (by decide) sample_ops_valid⟩

/-- C6, amended, at a sequence of calls with growth, erase, reserve and rehash. -/
theorem C6_load_factor_witness :
    sizeof_mapi_object ≤ 8 ∧ ValidOps 8 4294967295 sample_ops ∧
      ∃ m, run (fresh 8 4294967295 true) sample_ops = some m ∧
        (0 < mapi_bucket_count m → mapi_bucket_count m ≥ 2 * mapi_size m) :=
  ⟨by decide, sample_ops_valid,
    C6_load_factor 8 4294967295 true sample_ops (by decide) sample_ops_valid⟩

/-- C7 at a sequence of calls with growth, erase, reserve and rehash. -/
theorem C7_capacity_shape_witness :
    sizeof_mapi_object ≤ 8 ∧ ValidOps 8 4294967295 sample_ops ∧
      ∃ m, run (fresh 8 4294967295 true) sample_ops = some m ∧
        (mapi_bucket_count m = 0 ∨
          (MAPI_MIN_CAPACITY ≤ mapi_bucket_count m ∧ ∃ j, mapi_bucket_count m = 2 ^ j)) ∧
        MAPI_MIN_CAPACITY = 8 :=
  ⟨by decide, sample_ops_valid,
    C7_capacity_shape 8 4294967295 true sample_ops (by decide) sample_ops_valid⟩

/-- The sample sequence ends in a table of capacity 64 holding four records, after two releases. -/
theorem sample_ops_result :
    (run (fresh 8 4294967295 true) sample_ops).map
      (fun m => (m.capacity, m.size, live_count m, m.released)) =
        some (64, 4, 4, [⟨9, 90⟩, ⟨12, 121⟩]) := by
  decide

/-- C11: on every table, capacity 0 included, `mapi_erase` of a key that `mapi_find` does
not find returns the table it was given: size, capacity, every slot and the release trace
are unchanged. -/
theorem C11_erase_absent_noop (m : mapi) (k : Nat) (hnf : mapi_find m k = some none) :
    mapi_erase m k = some m :=
  erase_absent m k hnf

/-- C11 at a table of capacity 8 and at a fresh table of capacity 0. -/
theorem C11_erase_absent_noop_witness :
    mapi_find table8 5 = some none ∧ mapi_erase table8 5 = some table8 ∧
      mapi_erase (fresh 8 4294967295 true) 5 = some (fresh 8 4294967295 true) :=
  ⟨by decide, C11_erase_absent_noop table8 5 (by decide),
    C11_erase_absent_noop (fresh 8 4294967295 true) 5 (by decide)⟩

/-- C14: with a release callback registered, `mapi_clear` hands to `release` the live
records, one call for each live slot in slot order and no other call, so as many calls as
there are live slots; it leaves size 0 and capacity 0, and afterwards no key is found. -/
theorem C14_clear_releases_live (m : mapi) (hrel : m.release = true) :
    (mapi_clear m).released = m.released ++ (mapi_iter m).map (mapi_get m) ∧
      (mapi_iter m).Nodup ∧
      (∀ i, i ∈ mapi_iter m ↔ i < m.capacity ∧ (mapi_get m i).key ≠ m.empty_key) ∧
      ((mapi_iter m).map (mapi_get m)).length = live_count m ∧
      mapi_size (mapi_clear m) = 0 ∧ mapi_bucket_count (mapi_clear m) = 0 ∧
      ∀ k, mapi_find (mapi_clear m) k = some none := by
  have hp : (mapi_iter m).Pairwise (fun a b => a < b) := by
    rw [mapi_iter_eq]
    exact (List.pairwise_lt_range m.capacity).filter _
  rw [mapi_clear_eq m hrel]
  refine ⟨rfl, hp.imp (fun h => Nat.ne_of_lt h), ?_, ?_, rfl, rfl, ?_⟩
  · intro i
    rw [mapi_iter_eq]
    simp only [List.mem_filter, List.mem_range, mapi_empty]
    constructor
    · rintro ⟨h1, h2⟩; exact ⟨h1, by simpa using h2⟩
    · rintro ⟨h1, h2⟩; exact ⟨h1, by simpa using h2⟩
  · rw [List.length_map, length_iter]
  · intro k
    exact mapi_find_capacity_zero _ k rfl

/-- C14 at a table with four live records. -/
theorem C14_clear_releases_live_witness :
    table8.release = true ∧ live_count table8 = 4 ∧
      (mapi_clear table8).released = [⟨7, 70⟩, ⟨9, 90⟩, ⟨12, 120⟩, ⟨21, 210⟩] ∧
      mapi_size (mapi_clear table8) = 0 ∧ mapi_bucket_count (mapi_clear table8) = 0 :=
  ⟨rfl, by decide,
    (C14_clear_releases_live table8 rfl).1.trans (by decide),
    (C14_clear_releases_live table8 rfl).2.2.2.2.1,
    (C14_clear_releases_live table8 rfl).2.2.2.2.2.1⟩

/-- On a well-formed table whose stored records are all findable, with
`2 * (size + 1) > capacity`, the insert of a record whose key is already stored, when the
growth is allocated, returns `NULL` and leaves `size` and, for every key, the record
`mapi_find` yields unchanged; the capacity afterwards is the least power of two that is at
least `2 * (size + 1)`, more than before. -/
theorem rejected_insert_grows_of_findable (alloc : Nat → Bool) (m : mapi) (o : mapi_object)
    (hWF : WF m) (hF : Findable m) (hA : AllocFits m.object_size alloc)
    (hgrow : 2 * (m.size + 1) > m.capacity)
    (hst : ∃ i, i < m.capacity ∧ (mapi_get m i).key ≠ m.empty_key ∧
      (mapi_get m i).key = o.key)
    (ha : alloc (rehash_capacity m (2 * (m.size + 1))) = true) :
    ∃ m2, mapi_insert alloc m o = some (m2, none) ∧ mapi_size m2 = mapi_size m ∧
      (∀ k, mapi_find_record m2 k = mapi_find_record m k) ∧
      mapi_bucket_count m < mapi_bucket_count m2 ∧
      ∃ j, mapi_bucket_count m2 = 2 ^ j ∧ 2 * (mapi_size m + 1) ≤ 2 ^ j ∧
        ∀ i, 2 * (mapi_size m + 1) ≤ 2 ^ i → 2 ^ j ≤ 2 ^ i := by
  obtain ⟨i, hi, hl, hik⟩ := hst
  have h63 := hWF.2.2.1
  have hload := hWF.2.2.2.2
  obtain ⟨m2, m1, hins, hS, hm2, hc1⟩ := insert_present alloc m o hWF hF hA
    ⟨mapi_get m i, ⟨i, hi, rfl, hl⟩, hik⟩ (fun _ => ha)
  rw [if_pos (by omega)] at hc1
  obtain ⟨j, e1, e2, e3⟩ := roundup_spec (2 * (m.size + 1)) (by omega) (by omega)
  have hrc : rehash_capacity m (2 * (m.size + 1)) = 2 ^ j := by
    unfold rehash_capacity
    rw [if_neg (by omega), e1]
  have hfr : ∀ k, mapi_find_record m2 k = mapi_find_record m1 k := by
    intro k
    rw [hm2]
    split
    · exact (mapi_find_of_eq m1 { m1 with released := m1.released ++ [o] } k rfl rfl rfl).2
    · rfl
  have hsz : m2.size = m1.size := by rw [hm2]; split <;> rfl
  have hcp : m2.capacity = m1.capacity := by rw [hm2]; split <;> rfl
  refine ⟨m2, hins, ?_, ?_, ?_, j, ?_, e2, e3⟩
  · show m2.size = m.size
    rw [hsz]; exact hS.2.2.2.2.2.2.2.2.2.1
  · intro k
    rw [hfr k, same_contents_find m m1 k hWF hF hS]
  · show m.capacity < m2.capacity
    rw [hcp, hc1, hrc]; omega
  · show m2.capacity = 2 ^ j
    rw [hcp, hc1, hrc]

/-- C20, evaluated at two failing inputs. In the table of capacity 8 and size 4 in which
the erase of 2 has cut the stored record `(29, 200)` off its probe chain, the insert of
`(29, 1)` returns `NULL` and grows the table to 16, but `mapi_find` of 29 changes from not
found to `(29, 200)`. In the table of capacity 8 and size 4 in which the key 0 is stored
twice, the insert of `(0, 1)` returns `NULL` and grows the table to 16, but `size` drops to
3 and `mapi_find` of 0 changes from `(0, 201)` to `(0, 200)`. -/
theorem C20_rejected_insert_changes_find :
    (∃ m, run (fresh 8 MAPI_EMPTY_KEY true) stranded_ops = some m ∧
      WF m ∧ 2 * (mapi_size m + 1) > mapi_bucket_count m ∧ mapi_get m 5 = ⟨29, 200⟩ ∧
      mapi_find_record m 29 = some none ∧
      (mapi_insert (alloc_fits 8) m ⟨29, 1⟩).map
          (fun r => (r.2, mapi_size r.1, mapi_bucket_count r.1, mapi_find_record r.1 29)) =
        some (none, 4, 16, some (some ⟨29, 200⟩))) ∧
    ∃ m, run (fresh 8 MAPI_EMPTY_KEY true) doubled_ops = some m ∧
      WF m ∧ KeysFound m ∧ 2 * (mapi_size m + 1) > mapi_bucket_count m ∧
      mapi_size m = 4 ∧ mapi_find_record m 0 = some (some ⟨0, 201⟩) ∧
      (mapi_insert (alloc_fits 8) m ⟨0, 1⟩).map
          (fun r => (r.2, mapi_size r.1, mapi_bucket_count r.1, mapi_find_record r.1 0)) =
        some (none, 3, 16, some (some ⟨0, 200⟩)) := by
  refine ⟨⟨_, rfl, ?_, ?_, ?_, ?_, ?_⟩, ⟨_, rfl, ?_, ?_, ?_, ?_, ?_, ?_⟩⟩ <;> decide

/-- C13: `mapi_insert` starts with `mapi_reserve(size + 1)`, which calls `mapi_rehash`
exactly when `2 * (size + 1) > capacity`; and after the inserts of `n >= 1` records with
pairwise distinct keys into a freshly initialised table whose slots are large enough for a
record header, the allocator granting exactly the requests whose byte count does not wrap
and a buffer of `4 * n + 8` slots being such a request, all `n` are stored and the capacity
is the maximum of `MAPI_MIN_CAPACITY` and the least power of two that is at least `2 * n`. -/
theorem C13_growth_schedule (s e : Nat) (release : Bool) (rs : List mapi_object)
    (hne : rs ≠ []) (hk : ∀ r, r ∈ rs → r.key ≠ e)
    (hpw : rs.Pairwise (fun a b => a.key ≠ b.key)) (hs : sizeof_mapi_object ≤ s)
    (hfit : BufferFits (4 * rs.length + 8) s) :
    (∀ (R : mapi → Nat → Option (mapi × Int)) (m : mapi), m.size + 1 < 2 ^ 63 →
        mapi_reserve_with R m ((m.size + 1) % 2 ^ 64) =
          if 2 * (m.size + 1) > m.capacity then R m (2 * (m.size + 1)) else some (m, 0)) ∧
      ∃ m j, run (fresh s e release) (rs.map (Op.insert (alloc_fits s))) = some m ∧
        mapi_size m = rs.length ∧ mapi_bucket_count m = max MAPI_MIN_CAPACITY (2 ^ j) ∧
        2 * rs.length ≤ 2 ^ j ∧ ∀ i, 2 * rs.length ≤ 2 ^ i → 2 ^ j ≤ 2 ^ i := by
  have hlen : rs.length < 2 ^ 60 := by
    have h4 : (4 * rs.length + 8) * 4 ≤ (4 * rs.length + 8) * s := by
      unfold sizeof_mapi_object at hs
      exact Nat.mul_le_mul_left _ hs
    unfold BufferFits at hfit
    omega
  constructor
  · intro R m hm
    unfold mapi_reserve_with
    simp only
    rw [Nat.mod_eq_of_lt (show m.size + 1 < 2 ^ 64 by omega), shl_one _ (by omega)]
  · have hF0 : Findable (fresh s e release) := by
      intro i hi
      exact absurd hi (Nat.not_lt_zero _)
    obtain ⟨m, h1, _, _, h4, h5, _⟩ := run_inserts rs (fresh s e release)
      (fresh_wf s e release).1 hF0 rfl hk hpw
      (by
        rintro r _ r2 ⟨i, hi, _⟩
        exact absurd hi (Nat.not_lt_zero _))
      (by
        have : (fresh s e release).size = 0 := rfl
        omega)
      (by
        have : (fresh s e release).size = 0 := rfl
        rw [this, Nat.zero_add]
        exact hfit)
    have hs : m.size = rs.length := by
      have : (fresh s e release).size = 0 := rfl
      omega
    have hpos : 0 < rs.length := List.length_pos.mpr hne
    rw [if_neg (by omega), hs] at h5
    obtain ⟨j, e1, e2, e3⟩ := roundup_spec (2 * rs.length) (by omega) (by omega)
    rw [e1] at h5
    exact ⟨m, j, h1, hs, h5, e2, e3⟩

/-- C13 at five inserts: the capacity is 16, the least power of two that is at least 10. -/
theorem C13_growth_schedule_witness :
    (run (fresh 8 4294967295 true)
        ([⟨7, 70⟩, ⟨9, 90⟩, ⟨12, 120⟩, ⟨21, 210⟩, ⟨5, 50⟩].map
          (Op.insert (alloc_fits 8)))).map
      mapi_bucket_count = some 16 ∧
    ∃ m j, run (fresh 8 4294967295 true)
        ([⟨7, 70⟩, ⟨9, 90⟩, ⟨12, 120⟩, ⟨21, 210⟩, ⟨5, 50⟩].map
          (Op.insert (alloc_fits 8))) = some m ∧
      mapi_size m = [(⟨7, 70⟩ : mapi_object), ⟨9, 90⟩, ⟨12, 120⟩, ⟨21, 210⟩, ⟨5, 50⟩].length ∧
      mapi_bucket_count m = max MAPI_MIN_CAPACITY (2 ^ j) ∧
      2 * [(⟨7, 70⟩ : mapi_object), ⟨9, 90⟩, ⟨12, 120⟩, ⟨21, 210⟩, ⟨5, 50⟩].length ≤ 2 ^ j ∧
      ∀ i, 2 * [(⟨7, 70⟩ : mapi_object), ⟨9, 90⟩, ⟨12, 120⟩, ⟨21, 210⟩, ⟨5, 50⟩].length ≤ 2 ^ i →
        2 ^ j ≤ 2 ^ i :=
  ⟨by decide,
    (C13_growth_schedule 8 4294967295 true [⟨7, 70⟩, ⟨9, 90⟩, ⟨12, 120⟩, ⟨21, 210⟩, ⟨5, 50⟩]
      (by decide) (by decide) (by decide) (by decide) (by decide)).2⟩

/-- The capacity after each of five inserts into a fresh table: 8 after the first four,
16 after the fifth. -/
theorem capacity_after_inserts :
    (List.range 6).map (fun n =>
      (run (fresh 8 4294967295 true)
        (([⟨7, 70⟩, ⟨9, 90⟩, ⟨12, 120⟩, ⟨21, 210⟩, ⟨5, 50⟩].take n).map
          (Op.insert (alloc_fits 8)))).map mapi_bucket_count) =
      [some 0, some 8, some 8, some 8, some 8, some 16] := by
  decide

/-- C16, evaluated at a failing input. The slot `w` of the repair loop is computed from the
raw key, `getKey(i) & (capacity - 1)`, for every table and slot; in the table that holds the
keys 2 and 29, with capacity 8, the record of 29 is in slot 5 and its `w` is slot 5, while
`mapi_at` starts probing for 29 at slot `hash(29) & 7`, which is 4. -/
theorem C16_ideal_slot_ignores_hash :
    (∀ (m : mapi) (i : Nat), mapi_erase_w m i = (mapi_get m i).key &&& (m.capacity - 1)) ∧
      ∃ m, run (fresh 8 MAPI_EMPTY_KEY false)
          [Op.insert alloc_ok ⟨2, 100⟩, Op.insert alloc_ok ⟨29, 200⟩] = some m ∧
        mapi_bucket_count m = 8 ∧ mapi_get m 5 = ⟨29, 200⟩ ∧ mapi_erase_w m 5 = 5 ∧
        probe_start m (getKey (mapi_get m 5)) = 4 ∧ mapi_at m 29 = some (some 5) := by
  refine ⟨fun _ _ => rfl, _, rfl, ?_, ?_, ?_, ?_, ?_⟩ <;> decide

/-- C17: for slots `o`, `i`, `w` below the capacity with `i` other than `o`, the move test
of `mapi_erase` holds exactly when `w` is not met on the walk forward, with wraparound, from
the slot after `o` up to and including `i`; and a round of the repair loop on a live slot
`i` copies the record of `i` into the hole `o` and goes on with the hole `i` when the test
holds for the slot `w` of that record, and otherwise goes on with the table and the hole
unchanged. -/
theorem C17_move_test_is_cyclic (c o i w : Nat) (ho : o < c) (hi : i < c) (hw : w < c)
    (hio : i ≠ o) :
    (move_test o i w ↔ ¬ in_cyclic_range c o i w) ∧
      (move_test o i w ↔ (i > o ∧ (w ≤ o ∨ w > i)) ∨ (i < o ∧ (w ≤ o ∧ w > i))) ∧
      ∀ (fuel : Nat) (m : mapi) (i0 : Nat),
        i = (if i0 + 1 = m.capacity then 0 else i0 + 1) →
        (mapi_get m i).key ≠ m.empty_key →
        mapi_erase_loop (fuel + 1) m o i0 =
          if move_test o i (mapi_erase_w m i) then
            mapi_erase_loop fuel { m with objects := m.objects.set o (mapi_get m i) } i i
          else mapi_erase_loop fuel m o i := by
  refine ⟨move_test_iff c o i w ho hi hw hio, Iff.rfl, ?_⟩
  intro fuel m i0 hi0 hl
  rw [mapi_erase_loop_step, ← hi0, if_neg hl]

/-- C17 at capacity 8 with the hole in slot 6 and the scan wrapped to slot 1: the range is
7, 0, 1, and the record moves for `w = 3` but not for `w = 0`. -/
theorem C17_move_test_is_cyclic_witness :
    move_test 6 1 3 ∧ ¬ in_cyclic_range 8 6 1 3 ∧ ¬ move_test 6 1 0 ∧ in_cyclic_range 8 6 1 0 ∧
      (move_test 6 1 3 ↔ ¬ in_cyclic_range 8 6 1 3) :=
  ⟨by decide, by decide, by decide, by decide,
    (C17_move_test_is_cyclic 8 6 1 3 (by decide) (by decide) (by decide) (by decide)).1⟩

/-- C18: on a buffer of `capacity` slots, the capacity a power of two, with an empty slot,
the loop of `mapi_at` returns at its probe number `d + 1` for some `d` below the capacity
and not earlier; the slot it returns is below the capacity and is the first slot on the
probe sequence from `hash(k) & (capacity - 1)` that is empty or holds `k`. The repair loop
of `mapi_erase`, from a live hole `o`, returns in its round `d` for some `d` from 1 to
`capacity - 1`, and not earlier, when its scan meets the first empty slot after `o`. -/
theorem C18_probing_terminates (m : mapi) (k j : Nat)
    (hlen : m.objects.length = m.capacity) (hpow : m.capacity = 2 ^ j)
    (hex : ∃ e, e < m.capacity ∧ (mapi_get m e).key = m.empty_key) :
    (∃ d, d < m.capacity ∧
        mapi_at_loop m k (d + 1) (hash k) = some ((probe_start m k + d) % m.capacity) ∧
        mapi_at_loop m k d (hash k) = none ∧
        mapi_at m k = some (some ((probe_start m k + d) % m.capacity)) ∧
        (probe_start m k + d) % m.capacity < m.capacity ∧
        ((mapi_get m ((probe_start m k + d) % m.capacity)).key = m.empty_key ∨
          (mapi_get m ((probe_start m k + d) % m.capacity)).key = k) ∧
        ∀ e, e < d →
          (mapi_get m ((probe_start m k + e) % m.capacity)).key ≠ m.empty_key ∧
            (mapi_get m ((probe_start m k + e) % m.capacity)).key ≠ k) ∧
      ∀ o, o < m.capacity → (mapi_get m o).key ≠ m.empty_key →
        ∃ d, 1 ≤ d ∧ d < m.capacity ∧
          (mapi_get m ((o + d) % m.capacity)).key = m.empty_key ∧
          (∀ e, 1 ≤ e → e < d → (mapi_get m ((o + e) % m.capacity)).key ≠ m.empty_key) ∧
          (∃ m2 o2, mapi_erase_loop d m o o = some (m2, o2)) ∧
          mapi_erase_loop (d - 1) m o o = none := by
  have hpos : 0 < m.capacity := by obtain ⟨e, he, _⟩ := hex; omega
  have hps : ∀ d, (probe_start m k + d) % m.capacity = (hash k + d) % m.capacity := by
    intro d
    unfold probe_start
    rw [hpow, land_mask_pow, Nat.mod_add_mod]
  constructor
  · obtain ⟨d, hd, hs, hb⟩ := exists_first m.capacity (hash k)
      (fun q => (mapi_get m q).key = m.empty_key ∨ (mapi_get m q).key = k)
      (by obtain ⟨e, he, hk⟩ := hex; exact ⟨e, he, Or.inl hk⟩)
    have h1 := mapi_at_loop_exact m k j hpow (d + 1) (hash k) d (by omega) hs hb
    have h2 := mapi_at_loop_exact m k j hpow m.capacity (hash k) d hd hs hb
    have h3 := mapi_at_loop_short m k j hpow d (hash k) hb
    refine ⟨d, hd, by rw [hps]; exact h1, h3, ?_, Nat.mod_lt _ hpos, by rw [hps]; exact hs, ?_⟩
    · rw [mapi_at_pos m k hpos, h2, hps]; rfl
    · intro e he
      have := hb e he
      rw [hps]
      exact ⟨fun h => this (Or.inl h), fun h => this (Or.inr h)⟩
  · intro o ho hl
    obtain ⟨d, hd, hs, hb⟩ := exists_first m.capacity (o + 1)
      (fun q => (mapi_get m q).key = m.empty_key) hex
    have hmod : ∀ e, (o + 1 + e) % m.capacity = (o + (e + 1)) % m.capacity := by
      intro e; congr 1; omega
    rw [hmod] at hs
    have hd2 : d + 1 < m.capacity := by
      by_contra hcon
      have hd3 : d + 1 = m.capacity := by omega
      rw [hd3, Nat.add_mod_right, Nat.mod_eq_of_lt ho] at hs
      exact hl hs
    have hne : ∀ e, 1 ≤ e → e < d + 1 →
        (mapi_get m ((o + e) % m.capacity)).key ≠ m.empty_key := by
      intro e he1 he2
      have := hb (e - 1) (by omega)
      rw [hmod] at this
      have e2 : e - 1 + 1 = e := by omega
      rwa [e2] at this
    obtain ⟨m2, o2, h1, _⟩ := mapi_erase_loop_spec (d + 1) m o o hlen ho ho hl
      ⟨d + 1, by omega, by omega, hs⟩
    refine ⟨d + 1, by omega, hd2, hs, hne, ⟨m2, o2, h1⟩, ?_⟩
    apply mapi_erase_loop_short _ m o o hlen ho ho
    intro e he1 he2
    exact hne e he1 (by omega)

/-- C18 at a table of capacity 8 whose slots 0 to 3 are live: the probe for the absent
key 17 starts at slot 0 and returns the first empty slot 4 at its fifth probe. -/
theorem C18_probing_terminates_witness :
    table8.objects.length = table8.capacity ∧ table8.capacity = 2 ^ 3 ∧
      probe_start table8 17 = 0 ∧ mapi_at table8 17 = some (some 4) ∧
      mapi_at_loop table8 17 4 (hash 17) = none ∧
      (∃ d, d < table8.capacity ∧
        mapi_at_loop table8 17 (d + 1) (hash 17) =
          some ((probe_start table8 17 + d) % table8.capacity) ∧
        mapi_at_loop table8 17 d (hash 17) = none) :=
  ⟨by decide, by decide, by decide, by decide, by decide,
    (C18_probing_terminates table8 17 3 (by decide) (by decide)
      ⟨4, by decide, by decide⟩).1.elim
      (fun d h => ⟨d, h.1, h.2.1, h.2.2.1⟩)⟩

end Mapi
